import Mathlib

/-!
# Verification of the loopy call-resolution / iname-inference core

This file gives a shallow embedding, in Lean 4, of the parts of the
`nchristensen/loopy` repository that the specification's claims are about:

* `loopy/kernel.py`: `Instruction.__init__`, `LoopKernel.reader_map`,
  and the fixed-point iname-membership inference `find_all_insn_inames`;
* `loopy/transform/callable.py`: the arity sanity check of
  `register_callable_kernel`, the index-remapping arithmetic of
  `KernelInliner.map_subscript`, and the dependency splicing of
  `_inline_call_instruction`;
* `loopy/kernel/function_interface.py`: the specialization methods of
  `ScalarCallable` / `CallableKernel`, `next_indexed_variable`, and
  `register_pymbolic_calls_to_knl_callables`.

External collaborators (the symbolic-expression library `loopy.symbolic`,
the polyhedral library `islpy`, type inference) are out of scope of the
repository's core per its specification; their results are modelled as
data carried by the embedded structures (e.g. an instruction directly
carries the free-variable sets that `get_dependencies` would return) or
as function parameters.

Python strings are modelled as `String` (or `List Char` where character
level reasoning is required), Python `set`/`frozenset` as `Finset`,
Python dicts as association lists or total functions with an explicit
default, Python integers as `Int`/`Nat`, and raised exceptions as
`Except`-style error results.
-/

namespace Loopy

/-! ## Instruction construction (`loopy/kernel.py`, `Instruction.__init__`)

The constructor receives `assignee` and `expression` either as an already
parsed expression or as a string still to be parsed (`loopy.symbolic.parse`
is external; it is modelled by the injective constructor `PExpr.parsed`).
-/

/-- A pymbolic expression, as far as `Instruction.__init__` is concerned.
`parsed s` stands for the result of the external `loopy.symbolic.parse`
applied to the string `s`; `other` stands for any expression object that
was passed in already parsed. -/
inductive PExpr : Type where
  | parsed (s : String) : PExpr
  | other (tag : String) : PExpr
  deriving DecidableEq, Repr

/-- A Python value that is either a string or an (already parsed)
expression, as received by `Instruction.__init__` for its `assignee` and
`expression` parameters. -/
inductive StrOrExpr : Type where
  | str (s : String) : StrOrExpr
  | expr (e : PExpr) : StrOrExpr
  deriving DecidableEq, Repr

/-- The record stored by `Instruction.__init__` (only the fields the claims
are about; the remaining constructor arguments are threaded through
unchanged by the source and are carried verbatim here). -/
structure InstructionRec : Type where
  id : String
  assignee : StrOrExpr
  expression : StrOrExpr
  forced_iname_deps : Finset String
  insn_deps : Finset String
  deriving DecidableEq

/-- Embedding of `Instruction.__init__` (`loopy/kernel.py` lines 300-320):

```
if isinstance(assignee, str):
    assignee = parse(assignee)
if isinstance(expression, str):
    assignee = parse(expression)      # note: assigns to `assignee`
Record.__init__(self, id=id, assignee=assignee, expression=expression, ...)
```

The second `if` stores the parse of `expression` into the local variable
`assignee`, and `expression` is stored unparsed. -/
def instructionInit (id : String) (assignee expression : StrOrExpr)
    (forced : Finset String) (deps : Finset String) : InstructionRec :=
  let assignee := match assignee with
    | .str s => .expr (.parsed s)
    | e => e
  let assignee := match expression with
    | .str s => .expr (.parsed s)
    | _ => assignee
  { id := id, assignee := assignee, expression := expression,
    forced_iname_deps := forced, insn_deps := deps }

/-! ## Iname membership inference (`loopy/kernel.py`, `find_all_insn_inames`)

An instruction enters the algorithm only through:

* `get_dependencies(insn.expression)` — modelled by the field `readDeps`;
* `get_dependencies(insn.assignee)` — modelled by the field `writeDeps`;
* `insn.forced_iname_deps` — field `forced`;
* `insn.reduction_inames()` — field `reductionInames`;
* `insn.id` — field `id`.

(`get_dependencies` and the reduction traversal live in the external
`loopy.symbolic` module, so their outputs are data here.)
-/

/-- An instruction, seen through the attributes that
`find_all_insn_inames` consumes.  The two `get_dependencies` results are
Python sets; they are carried as the lists of their elements so that the
source's `for`-loops over them are directly expressible (Python's set
iteration order is unspecified; no theorem depends on the order chosen). -/
structure Insn0 : Type where
  id : String
  readDeps : List String
  writeDeps : List String
  forced : Finset String
  reductionInames : Finset String
  deriving DecidableEq

/-- `iname_deps` as computed by the first loop of `find_all_insn_inames`:
`(read_deps | write_deps) & all_inames | insn.forced_iname_deps`. -/
def directInames (allInames : Finset String) (insn : Insn0) : Finset String :=
  ((insn.readDeps.toFinset ∪ insn.writeDeps.toFinset) ∩ allInames) ∪ insn.forced

/-- `insn_assignee_inames[insn.id] = write_deps & all_inames`. -/
def assigneeInames (allInames : Finset String) (insn : Insn0) : Finset String :=
  insn.writeDeps.toFinset ∩ allInames

/-- The iteration state `insn_id_to_inames`, a dict from instruction id to
its current iname set; ids never inserted read as `∅`. -/
def InameState : Type := String → Finset String

/-- `insn_id_to_inames` as first populated (later instructions overwrite
earlier ones with the same id, exactly as the Python dict assignment does). -/
def initState (allInames : Finset String) (insns : List Insn0) : InameState :=
  insns.foldl (fun s insn => Function.update s insn.id (directInames allInames insn)) (fun _ => ∅)

/-- The dict `writer_map` passed to `find_all_insn_inames`: for each
variable name, the ids of the instructions writing it.  A key missing from
the Python dict is modelled by the empty list. -/
def WriterMap : Type := String → List String

/-- The intersection, over all writers of a temporary, of
`insn_id_to_inames[writer_id] - insn_assignee_inames[writer_id]`,
mirroring the `implicit_inames` accumulation that starts from `None`:
an empty writer list yields `none` (in Python this situation raises). -/
def implicitInames (aMap : InameState) (s : InameState) :
    List String → Option (Finset String)
  | [] => none
  | w :: ws => some (ws.foldl (fun acc w' => acc ∩ (s w' \ aMap w')) (s w \ aMap w))

/-- The temporary variables read by an instruction:
`get_dependencies(insn.expression) & temp_var_names` — the set the inner
`for tv_name in …` loop ranges over, as the list of its elements. -/
def readTemps (tempVars : Finset String) (insn : Insn0) : List String :=
  insn.readDeps.dedup.filter (· ∈ tempVars)

/-- One inner-loop body of the fixed-point iteration, for one instruction
and one read temporary: set the instruction's entry to
`(inames_old | implicit_inames) - insn.reduction_inames()` and record in
the boolean whether the entry changed (`did_something`).

When the temporary has no writer the Python code raises
(`writer_map[tv_name]` is a `KeyError`); every theorem below hypothesises
at least one writer per read temporary, so that branch is left as a no-op. -/
def tvUpdate (aMap : InameState) (writerMap : WriterMap) (insn : Insn0)
    (acc : InameState × Bool) (tv : String) : InameState × Bool :=
  match implicitInames aMap acc.1 (writerMap tv) with
  | none => acc
  | some impl =>
      let inamesOld := acc.1 insn.id
      let inamesNew := (inamesOld ∪ impl) \ insn.reductionInames
      (Function.update acc.1 insn.id inamesNew,
        acc.2 || decide (inamesNew ≠ inamesOld))

/-- The inner loop over all temporaries read by one instruction. -/
def insnUpdate (aMap : InameState) (writerMap : WriterMap) (tempVars : Finset String)
    (acc : InameState × Bool) (insn : Insn0) : InameState × Bool :=
  (readTemps tempVars insn).foldl (tvUpdate aMap writerMap insn) acc

/-- One full pass of the `while True` loop over all instructions, together
with the pass's `did_something` flag. -/
def onePass (aMap : InameState) (writerMap : WriterMap) (tempVars : Finset String)
    (insns : List Insn0) (s : InameState) : InameState × Bool :=
  insns.foldl (insnUpdate aMap writerMap tempVars) (s, false)

/-- The `while True` loop, driven by explicit fuel.  The fuel used by
`find_all_insn_inames` below is proved sufficient (`loopTerminates`); with
sufficient fuel this is exactly the source's "repeat until a full pass
changes nothing". -/
def passLoop (aMap : InameState) (writerMap : WriterMap) (tempVars : Finset String)
    (insns : List Insn0) : Nat → InameState → InameState
  | 0, s => s
  | fuel + 1, s =>
      match onePass aMap writerMap tempVars insns s with
      | (s', false) => s'
      | (s', true) => passLoop aMap writerMap tempVars insns fuel s'

/-- The finite universe that every iname set stays inside: the union of all
instructions' initial `iname_deps`. -/
def inameUniverse (allInames : Finset String) (insns : List Insn0) : Finset String :=
  insns.foldl (fun u insn => u ∪ directInames allInames insn) ∅

/-- Fuel sufficient for the fixed point: one clearing pass, then at most
`|insns| * |universe|` strictly growing passes, then one stabilising pass. -/
def sufficientFuel (allInames : Finset String) (insns : List Insn0) : Nat :=
  insns.length * (inameUniverse allInames insns).card + 2

/-- The dict `insn_assignee_inames` built by the first loop (again, a later
duplicate id would overwrite an earlier one, like the Python dict). -/
def assigneeMap (allInames : Finset String) (insns : List Insn0) : InameState :=
  insns.foldl (fun s insn => Function.update s insn.id (assigneeInames allInames insn)) (fun _ => ∅)

/-- Embedding of `find_all_insn_inames(instructions, all_inames, writer_map,
temporary_variables)` (`loopy/kernel.py` lines 1237-1304). -/
def find_all_insn_inames (insns : List Insn0) (allInames : Finset String)
    (writerMap : WriterMap) (tempVars : Finset String) : InameState :=
  passLoop (assigneeMap allInames insns) writerMap tempVars insns
    (sufficientFuel allInames insns) (initState allInames insns)

/-- The `k`-th intermediate state of the `while True` loop (`k` full passes
applied to the initial state); used to state termination and monotonicity. -/
def passIter (insns : List Insn0) (allInames : Finset String)
    (writerMap : WriterMap) (tempVars : Finset String) (k : Nat) : InameState :=
  (fun s => (onePass (assigneeMap allInames insns) writerMap tempVars insns s).1)^[k]
    (initState allInames insns)

/-- The update rule exactly as claim C1 words it: set I's inames to
(I's current inames ∪ implicit inames from all read temporaries) minus the
inames bound by reduction constructs in I's own expression.  This follows
the claim's words (not the source) so that the source's behaviour can be
compared against it; a temporary without writers contributes `∅`. -/
def claimUpdateRule (aMap : InameState) (writerMap : WriterMap)
    (tempVars : Finset String) (s : InameState) (insn : Insn0) : Finset String :=
  (s insn.id ∪ (readTemps tempVars insn).foldr
      (fun tv acc => (implicitInames aMap s (writerMap tv)).getD ∅ ∪ acc) ∅)
    \ insn.reductionInames

/-! ## `LoopKernel.reader_map` (`loopy/kernel.py` lines 910-923) -/

/-- A kernel, seen through the attributes `reader_map` consumes:
argument names, temporary-variable names, and instructions (an
instruction's `get_read_var_names()` is `get_dependencies(insn.expression)`,
i.e. the `readDeps` field of `Insn0`). -/
structure LKernel0 : Type where
  argNames : Finset String
  temporaryVariables : Finset String
  insns : List Insn0

/-- The dict that the body of `reader_map` builds (`result`):
variable name ↦ ids of the instructions that read it. -/
def readerMapDict (k : LKernel0) : String → Finset String :=
  let admissibleVars := k.argNames ∪ k.temporaryVariables
  k.insns.foldl
    (fun res insn =>
      (insn.readDeps.dedup.filter (· ∈ admissibleVars)).foldl
        (fun res varName => Function.update res varName (res varName ∪ {insn.id})) res)
    (fun _ => ∅)

/-- Embedding of `LoopKernel.reader_map`: the method populates its local
`result` dict but has no `return` statement, so the call evaluates to
Python's implicit `None` — modelled as `Option.none`. -/
def reader_map (k : LKernel0) : Option (String → Finset String) :=
  let _result := readerMapDict k
  none

/-! ## Python exceptions, array dimensions -/

/-- The exceptions the embedded fragments can raise. -/
inductive PyErr : Type where
  | loopyError (msg : String) : PyErr
  | indexError : PyErr
  | attributeError (attr : String) : PyErr
  | notImplementedError (msg : String) : PyErr
  deriving DecidableEq

/-- One entry of an array shape: a constant size (a Python `Integral`) or
a symbolic expression. -/
inductive Dim : Type where
  | const (n : Int) : Dim
  | sym (name : String) : Dim
  deriving DecidableEq

/-- `isinstance(d, Integral)` for a shape entry. -/
def Dim.isIntegral : Dim → Bool
  | .const _ => true
  | .sym _ => false

/-- `d[k] = v` on an association-list dict (replace in place if the key
exists, else append — Python dict assignment, preserving the insertion
order Python iterates in). -/
def dictSet {K V : Type} [DecidableEq K] (k : K) (v : V) :
    List (K × V) → List (K × V)
  | [] => [(k, v)]
  | (k', v') :: rest =>
      if k' = k then (k, v) :: rest else (k', v') :: dictSet k v rest

/-- `d.get(k)` on an association-list dict. -/
def dictGet {K V : Type} [DecidableEq K] (k : K) : List (K × V) → Option V
  | [] => none
  | (k', v') :: rest => if k' = k then some v' else dictGet k rest

/-! ## Index remapping (`loopy/transform/callable.py`,
`KernelInliner.map_subscript`, lines 231-274)

The arithmetic is carried out by the source on pymbolic expressions and
passed through `simplify_via_aff` (an external, semantics-preserving affine
simplifier).  The embedding works at the level of the integer values the
expressions denote, on which the simplifier is the identity; Python's `//`
on integers is floor division, i.e. `Int.fdiv`. -/

/-- `.format` applied to the message template
`"Argument: \x7b0\x7d in callee kernel: \x7b1\x7d does not have constant shape."`,
which contains two replacement fields; with fewer than two arguments the
`format` call itself raises `IndexError` (replacement index out of range),
before any `LoopyError` is constructed. -/
def formatNonConstantShapeMsg (args : List String) : Except PyErr String :=
  match args with
  | a :: b :: _ =>
      .ok ("Argument: " ++ a ++ " in callee kernel: " ++ b ++
        " does not have constant shape.")
  | _ => .error .indexError

/-- The flattening step: `flatten_index` starts from
`sum(idx * caller_arg.dim_tags[i].stride)` over the Sub-Array Reference's
begin subscript, plus `sum(idx * tag.stride for idx, tag in
zip(outer_indices, callee_arg.dim_tags))`. -/
def flattenIndex (sarBegin callerStrides outerIndices calleeStrides : List Int) : Int :=
  (List.zipWith (· * ·) sarBegin callerStrides).sum +
    (List.zipWith (· * ·) outerIndices calleeStrides).sum

/-- The unflattening loop: for each caller `dim_tag` in order,
`ind = flatten_index // dim_tag.stride; flatten_index -= dim_tag.stride * ind`. -/
def decomposeByStrides : Int → List Int → List Int
  | _, [] => []
  | flatten, stride :: rest =>
      let ind := flatten.fdiv stride
      ind :: decomposeByStrides (flatten - stride * ind) rest

/-- Embedding of the index-rewriting branch of `KernelInliner.map_subscript`
(the branch taken when the subscripted aggregate is a bound callee array
argument).  Its value-level inputs:

* `calleeArgRepr` — the string interpolation of `callee_arg` (the sole
  `.format` argument of the error message);
* `calleeShape` — `callee_arg.shape`;
* `sarBegin` — the index tuple of `sar.get_begin_subscript()` (the caller
  slice's origin);
* `callerStrides` — the strides of `caller_arg.dim_tags`;
* `calleeStrides` — the strides of `callee_arg.dim_tags`;
* `outerIndices` — the (already renamed) callee subscript index tuple.

Returns the rewritten caller-side index tuple, or the raised exception. -/
def map_subscript (calleeArgRepr : String) (calleeShape : List Dim)
    (sarBegin callerStrides calleeStrides outerIndices : List Int) :
    Except PyErr (List Int) :=
  if calleeShape.all Dim.isIntegral then
    .ok (decomposeByStrides
      (flattenIndex sarBegin callerStrides outerIndices calleeStrides) callerStrides)
  else
    match formatNonConstantShapeMsg [calleeArgRepr] with
    | .ok msg => .error (.loopyError msg)
    | .error e => .error e

/-- Stable descending insertion by the stride component (second component
of a `(dimension, stride)` pair). -/
def insertByStrideDesc (p : Nat × Int) : List (Nat × Int) → List (Nat × Int)
  | [] => [p]
  | q :: rest =>
      if q.2 < p.2 then p :: q :: rest else q :: insertByStrideDesc p rest

/-- The `(dimension, stride)` pairs ordered by decreasing stride (stable). -/
def sortByStrideDesc (l : List (Nat × Int)) : List (Nat × Int) :=
  l.foldr insertByStrideDesc []

/-- Largest-stride-first decomposition, following claim C3's words (not the
source): decompose the linear offset by successive floor-division/remainder
against the caller array's dimension strides, visiting the dimensions in
order of decreasing stride, each quotient going to its own dimension's
slot, and read the slots back in dimension order. -/
def claimDecomposeLargestFirst (flatten : Int) (strides : List Int) : List Int :=
  let sorted := sortByStrideDesc strides.enum
  let step : (Int × List (Nat × Int)) → (Nat × Int) → (Int × List (Nat × Int)) :=
    fun acc p =>
      let ind := acc.1.fdiv p.2
      (acc.1 - p.2 * ind, dictSet p.1 ind acc.2)
  let quots := (sorted.foldl step (flatten, [])).2
  (List.range strides.length).map (fun i => (dictGet i quots).getD 0)

/-! ## Arity sanity check of `register_callable_kernel`
(`loopy/transform/callable.py` lines 100-142) -/

/-- A Python value, as far as the comparison
`insn.assignees != expected_num_assignees` is concerned: the left operand
is the tuple of assignees, the right an `int`. -/
inductive PyVal : Type where
  | vint (n : Int) : PyVal
  | vtuple (elems : List String) : PyVal
  deriving DecidableEq

/-- Python `==` between such values: a tuple never equals an int. -/
def pyEq : PyVal → PyVal → Bool
  | .vint a, .vint b => a == b
  | .vtuple a, .vtuple b => a == b
  | _, _ => false

/-- The caller-side instruction classification used by the sanity check. -/
inductive CInsnKind : Type where
  | callInsn (fname : String) (assignees : List String) (parameters : List String)
  | multiAssignment
  | cInstruction
  | dataOblivious
  | unknown (tyName : String)
  deriving DecidableEq

/-- A caller instruction: an id and its classification. -/
structure CallerInsn : Type where
  id : String
  kind : CInsnKind
  deriving DecidableEq

/-- A callee-kernel argument after `infer_arg_is_output_only`. -/
structure CalleeArg : Type where
  name : String
  isOutputOnly : Bool
  deriving DecidableEq

/-- The per-instruction body of the sanity-check loop of
`register_callable_kernel`.  Faithful points:

* the guard compares the call's function name against the *string literal*
  `'function_name'` (the source writes
  `insn.expression.function.name == 'function_name'`, quoting the
  parameter's name), so calls to the actually registered name are never
  checked;
* inside the guard, `insn.assignees != expected_num_assignees` compares the
  assignee *tuple* against an *int* (via `pyEq`), which never holds, so the
  branch always raises `LoopyError`;
* were that comparison ever false, the next line reads the misspelled
  attribute `insn.expression.prameters`, an `AttributeError`. -/
def registerCheckInsn (expectedNumAssignees : Int) (insn : CallerInsn) :
    Except PyErr Unit :=
  match insn.kind with
  | .callInsn fname assignees _params =>
      if fname = "function_name" then
        if !pyEq (.vtuple assignees) (.vint expectedNumAssignees) then
          .error (.loopyError
            "The number of arguments with out direction in callee kernel and the number of assignees do not match.")
        else
          .error (.attributeError "prameters")
      else
        .ok ()
  | .multiAssignment => .ok ()
  | .cInstruction => .ok ()
  | .dataOblivious => .ok ()
  | .unknown ty => .error (.notImplementedError ("unknown instruction " ++ ty))

/-- Embedding of the arity sanity-check section of
`register_callable_kernel(caller_kernel, function_name, callee_kernel)`:
count the callee's output-only arguments, then scan the caller's
instructions, raising on the first offending one. -/
def register_callable_kernel_check (callerInsns : List CallerInsn)
    (calleeArgs : List CalleeArg) : Except PyErr Unit :=
  let expectedNumAssignees : Int := (calleeArgs.filter (·.isOutputOnly)).length
  callerInsns.foldl
    (fun acc insn => acc >>= fun _ => registerCheckInsn expectedNumAssignees insn)
    (.ok ())

/-! ## Dependency splicing of `_inline_call_instruction`
(`loopy/transform/callable.py` lines 281-461, dependency part lines 376-436)

The instructions of the 2018-era kernel involved here carry `depends_on`
and `within_inames`; expression rewriting (`with_transformed_expressions`
with the `KernelInliner` mapper) acts only on the instruction body, which
is abstracted into an opaque `exprTag` transformed by a parameter
function.  The renaming dictionaries `insn_id` / `iname_map`, produced in
the source by the kernel's unique-name generators, enter as function
parameters (their relevant properties — injectivity, freshness — appear
as hypotheses of the theorems). -/

/-- A 2018-era instruction, as far as dependency splicing is concerned. -/
structure RInsn : Type where
  id : String
  depends_on : Finset String
  within_inames : Finset String
  priority : Option Int
  isNoOp : Bool
  exprTag : String
  deriving DecidableEq

/-- The callee kernel's instruction ids. -/
def calleeIds (insns : List RInsn) : Finset String :=
  insns.foldr (fun insn acc => insert insn.id acc) ∅

/-- The direct dependency dict: instruction id ↦ `depends_on`
(a later duplicate id would overwrite an earlier one, like a Python dict);
ids without an entry read as `∅`. -/
def depMapDirect (insns : List RInsn) : String → Finset String :=
  insns.foldl (fun m insn => Function.update m insn.id insn.depends_on) (fun _ => ∅)

/-- One expansion step towards the transitive closure of a dependency map. -/
def recExpand (F : String → Finset String) : String → Finset String :=
  fun i => F i ∪ (F i).biUnion F

/-- Modelled from the spec: `LoopKernel.recursive_insn_dep_map` is called by
`_inline_call_instruction` but its definition is not part of src/ (the
2018-era `LoopKernel` lives outside the three provided files).  Per the
spec's §4.4 it yields, for every instruction, its recursive (transitive)
instruction-dependency set, from which "roots depend on nothing" and
"leaves have nothing that depends on them" are computed; it is modelled as
the transitive closure of the direct `depends_on` map, reached here after
`insns.length` expansion steps. -/
def recursive_insn_dep_map (insns : List RInsn) : String → Finset String :=
  recExpand^[insns.length] (depMapDirect insns)

/-- `heads`: ids whose entry in the recursive dependency map is empty
("roots depend on nothing"). -/
def spliceHeads (insns : List RInsn) : Finset String :=
  (calleeIds insns).filter (fun i => recursive_insn_dep_map insns i = ∅)

/-- `tails`: all ids minus every id appearing in some instruction's
recursive dependency set ("leaves have nothing that depends on them"). -/
def spliceTails (insns : List RInsn) : Finset String :=
  calleeIds insns \ (calleeIds insns).biUnion (recursive_insn_dep_map insns)

/-- The start marker: a `NoOpInstruction` with a fresh id, the call's
`within_inames`, and the call's `depends_on`. -/
def noopStart (call : RInsn) (startId : String) : RInsn :=
  { id := startId, depends_on := call.depends_on,
    within_inames := call.within_inames, priority := none,
    isNoOp := true, exprTag := "noop" }

/-- The end marker: a `NoOpInstruction` that takes over the call's id and
depends on the renamed tails. -/
def noopEnd (insns : List RInsn) (call : RInsn) (rename : String → String) : RInsn :=
  { id := call.id, depends_on := (spliceTails insns).image rename,
    within_inames := call.within_inames, priority := none,
    isNoOp := true, exprTag := "noop" }

/-- One spliced callee instruction: renamed id; dependencies = renamed own
dependencies ∪ the call's dependencies, plus the start marker for heads;
loop membership = renamed own inames ∪ the call's; the call's priority;
body rewritten by the substitution mapper (abstracted as `exprT`).
(`map(insn_id.get, insn.depends_on)` requires every dependency to be a
callee instruction id — otherwise Python would put `None` into the set —
which the theorems hypothesise.) -/
def splicedInsn (insns : List RInsn) (call : RInsn) (rename inameMap : String → String)
    (exprT : String → String) (startId : String) (insn : RInsn) : RInsn :=
  { id := rename insn.id,
    depends_on := (insn.depends_on.image rename ∪ call.depends_on) ∪
      (if insn.id ∈ spliceHeads insns then {startId} else ∅),
    within_inames := insn.within_inames.image inameMap ∪ call.within_inames,
    priority := call.priority,
    isNoOp := insn.isNoOp,
    exprTag := exprT insn.exprTag }

/-- `inner_insns`: the start marker, the spliced body, the end marker. -/
def innerInsns (insns : List RInsn) (call : RInsn) (rename inameMap : String → String)
    (exprT : String → String) (startId : String) : List RInsn :=
  noopStart call startId ::
    insns.map (splicedInsn insns call rename inameMap exprT startId) ++
      [noopEnd insns call rename]

/-- The caller's new instruction list: the call instruction is replaced by
`inner_insns`, every other instruction is kept (`if insn == instruction`
compares by value, as the source does). -/
def inlineInstructionList (kernelInsns : List RInsn) (calleeInsns : List RInsn)
    (call : RInsn) (rename inameMap : String → String) (exprT : String → String)
    (startId : String) : List RInsn :=
  kernelInsns.flatMap (fun insn =>
    if insn = call then innerInsns calleeInsns call rename inameMap exprT startId
    else [insn])

/-- `a` directly waits on `b` inside the instruction list `l`: both occur in
`l` and `b`'s id is among `a`'s dependencies. -/
def waitsOn (l : List RInsn) (a b : RInsn) : Prop :=
  a ∈ l ∧ b ∈ l ∧ b.id ∈ a.depends_on

/-- Concrete callee instructions used to instantiate theorem hypotheses:
`c1` has no dependencies, `c2` depends on `c1`. -/
def exCalleeInsns : List RInsn :=
  [⟨"c1", ∅, ∅, none, false, "x"⟩, ⟨"c2", {"c1"}, ∅, none, false, "y"⟩]

/-- A concrete call instruction with one dependency and one iname. -/
def exCall : RInsn := ⟨"call0", {"pre"}, {"i"}, some 5, false, "call"⟩

/-- A concrete renaming, as the id generator would produce. -/
def exRename : String → String := fun s => "call_" ++ s

/-- A topological rank for `exCalleeInsns` (dependencies rank lower). -/
def exRank : String → Nat := fun s => if s = "c2" then 1 else 0

/-- A concrete instruction writing temporary `t` under no inames. -/
def exW : Insn0 := ⟨"w", [], ["t"], ∅, ∅⟩

/-- A concrete instruction reading temporary `t`, with forced iname `r`
that its own reduction also binds. -/
def exA : Insn0 := ⟨"a", ["t"], ["x"], {"r"}, {"r"}⟩

/-- A concrete instruction reading no temporaries, with forced iname `r`
that its own reduction also binds. -/
def exB : Insn0 := ⟨"b", [], ["x"], {"r"}, {"r"}⟩

/-- The writer map of the kernel `[exW, exA]`: only `t` has a writer. -/
def exWm : WriterMap := fun v => if v = "t" then ["w"] else []

/-! ## Callable data model (`loopy/kernel/function_interface.py`)

Python dicts appear as association lists (`dictSet` reproduces dict item
assignment: replace in place if the key exists, else append — insertion
order is what Python iterates in).  Argument identifiers are non-negative
positions, negative result positions, or keyword names. -/

/-- An argument identifier: a positional (possibly negative) index or a
keyword name. -/
inductive ArgId : Type where
  | pos (n : Int) : ArgId
  | kw (s : String) : ArgId
  deriving DecidableEq

/-- A concrete type, opaque at this level (`loopy.types` is external). -/
abbrev Dtype := String

/-- An argument descriptor: `ValueArgDescriptor` or
`ArrayArgDescriptor(shape, mem_scope, dim_tags)`. -/
inductive ArgDescr : Type where
  | value : ArgDescr
  | array (shape : List Dim) (memScope : String) (dimTags : List Int) : ArgDescr
  deriving DecidableEq

/-- A nested-kernel argument after `infer_arg_direction` /
`infer_arg_is_output_only` (direction is `in` or `out`). -/
structure KArg : Type where
  name : String
  isOutput : Bool
  dtype : Option Dtype
  shape : List Dim
  dimTags : List Int
  memScope : String
  deriving DecidableEq

/-- A hardware grid size (an `islpy.PwAff`), opaque at this level. -/
abbrev GridVal := String

/-- The nested kernel wrapped by a `CallableKernel`, seen through the
fields its specialization methods touch; everything else about the
2018-era `LoopKernel` (not part of src/) is carried opaquely in `payload`. -/
structure SubKernelR : Type where
  name : String
  args : List KArg
  overriddenGridSizes : Option (GridVal × GridVal)
  payload : String
  deriving DecidableEq

/-- `ScalarCallable(name, arg_id_to_dtype, arg_id_to_descr, name_in_target)`.
Dtype map values may be Python `None`, hence `Option Dtype`. -/
structure ScalarCallableR : Type where
  name : String
  argIdToDtype : Option (List (ArgId × Option Dtype))
  argIdToDescr : Option (List (ArgId × ArgDescr))
  nameInTarget : Option String
  deriving DecidableEq

/-- `CallableKernel(subkernel, arg_id_to_dtype, arg_id_to_descr,
name_in_target)`. -/
structure CallableKernelR : Type where
  subkernel : SubKernelR
  argIdToDtype : Option (List (ArgId × Option Dtype))
  argIdToDescr : Option (List (ArgId × ArgDescr))
  nameInTarget : Option String
  deriving DecidableEq

/-- `get_kw_pos_association(kernel)`'s `kw_to_pos` direction: inputs get
`0,1,2,…` in declaration order, outputs get `-1,-2,…` in declaration
order.  (`infer_arg_direction` is external; `isOutput` is its result.) -/
def kwToPos (args : List KArg) : List (String × Int) :=
  (args.foldl
    (fun acc arg =>
      let (m, readCount, writeCount) := acc
      if arg.isOutput then (dictSet arg.name writeCount m, readCount, writeCount - 1)
      else (dictSet arg.name readCount m, readCount + 1, writeCount))
    (([] : List (String × Int)), (0 : Int), (-1 : Int))).1

/-- Every specialization method is embedded as a function from the callable
and the caller-supplied mapping to the returned callable *and the
caller-visible state of that mapping after the call* — the source methods
contain no assignment to `self` attributes, so the callable itself has no
mutable state to thread, but the Python dict arguments do. -/
def ScalarCallableR.with_descrs (s : ScalarCallableR)
    (argIdToDescr : List (ArgId × ArgDescr)) :
    ScalarCallableR × List (ArgId × ArgDescr) :=
  let d := dictSet (.pos (-1)) .value argIdToDescr
  ({ s with argIdToDescr := some d }, d)

/-- `ScalarCallable.with_types` unconditionally raises `LoopyError`
("No type inference information present ..."); the dict is untouched. -/
def ScalarCallableR.with_types (s : ScalarCallableR)
    (_argIdToDtype : List (ArgId × Option Dtype)) :
    Except PyErr (ScalarCallableR × List (ArgId × Option Dtype)) :=
  .error (.loopyError
    ("No type inference information present for the function " ++ s.name ++ "."))

/-- `ScalarCallable.with_hw_axes_sizes(global_size, local_size)` returns
`self.copy()` — an identical new value. -/
def ScalarCallableR.with_hw_axes_sizes (s : ScalarCallableR)
    (_globalSize _localSize : GridVal) : ScalarCallableR :=
  s

/-- The per-argument type push of `CallableKernel.with_types`: keyword key
first, positional key second, else the argument is kept.  A keyword missing
from `kw_to_pos` would be a Python `KeyError` (unreachable for a map built
from the same argument list). -/
def withTypesArgUpdate (argIdToDtype : List (ArgId × Option Dtype))
    (ktp : List (String × Int)) (arg : KArg) : Except PyErr KArg :=
  match dictGet (.kw arg.name) argIdToDtype with
  | some dt => .ok { arg with dtype := dt }
  | none =>
      match dictGet arg.name ktp with
      | none => .error .indexError
      | some p =>
          match dictGet (.pos p) argIdToDtype with
          | some dt => .ok { arg with dtype := dt }
          | none => .ok arg

/-- One step of rebuilding `new_arg_id_to_dtype`: store the inferred dtype
under the keyword key and then under the positional key. -/
def withTypesMapFold (ktp : List (String × Int))
    (m : List (ArgId × Option Dtype)) (arg : KArg) :
    Except PyErr (List (ArgId × Option Dtype)) :=
  match dictGet arg.name ktp with
  | none => .error .indexError
  | some p => .ok (dictSet (.pos p) arg.dtype (dictSet (.kw arg.name) arg.dtype m))

/-- `CallableKernel.with_types(arg_id_to_dtype, kernel)`: push the supplied
types onto matching subkernel arguments, run the external type-inference
collaborator (`inferTypes` parameter, for
`infer_unknown_types(…, expect_completion=True)`), rebuild the id→dtype
map from the inferred arguments under both keys, and return a copy. -/
def CallableKernelR.with_types (c : CallableKernelR)
    (inferTypes : SubKernelR → SubKernelR)
    (argIdToDtype : List (ArgId × Option Dtype)) :
    Except PyErr (CallableKernelR × List (ArgId × Option Dtype)) :=
  match c.subkernel.args.mapM
      (withTypesArgUpdate argIdToDtype (kwToPos c.subkernel.args)) with
  | .error e => .error e
  | .ok newArgs =>
      let specialized := inferTypes { c.subkernel with args := newArgs }
      match specialized.args.foldlM (withTypesMapFold (kwToPos c.subkernel.args))
          ([] : List (ArgId × Option Dtype)) with
      | .error e => .error e
      | .ok newMap =>
          .ok ({ c with subkernel := specialized, argIdToDtype := some newMap },
            argIdToDtype)

/-- Python list item assignment `l[i] = f(l[i])` with negative-index
semantics; out of range raises `IndexError`. -/
def pyListModify {α : Type} (l : List α) (i : Int) (f : α → α) :
    Except PyErr (List α) :=
  let j : Int := if 0 ≤ i then i else l.length + i
  if h : 0 ≤ j ∧ j.toNat < l.length then
    .ok (l.set j.toNat (f (l.get ⟨j.toNat, h.2⟩)))
  else .error .indexError

/-- One item of the `CallableKernel.with_descrs` loop: resolve a keyword id
to its position (a missing keyword is a Python `KeyError`), then for an
array descriptor rewrite the indexed argument's shape/dim-tags/memory
scope (`new_args[id] = new_args[id].copy(...)`, with Python's
negative-index semantics), and skip value descriptors. -/
def withDescrsItemUpdate (ktp : List (String × Int)) (args : List KArg)
    (item : ArgId × ArgDescr) : Except PyErr (List KArg) :=
  match (match item.1 with
    | .kw s =>
        (match dictGet s ktp with
          | none => .error .indexError
          | some p => .ok p : Except PyErr Int)
    | .pos n => .ok n) with
  | .error e => .error e
  | .ok p =>
      match item.2 with
      | .array shape memScope dimTags =>
          pyListModify args p (fun arg =>
            { arg with shape := shape, dimTags := dimTags, memScope := memScope })
      | .value => .ok args

/-- `CallableKernel.with_descrs(arg_id_to_descr)`: copy the argument list,
rewrite it item by item, and return a copy with the new subkernel and the
supplied map stored.  The supplied dict is read, never written. -/
def CallableKernelR.with_descrs (c : CallableKernelR)
    (argIdToDescr : List (ArgId × ArgDescr)) :
    Except PyErr (CallableKernelR × List (ArgId × ArgDescr)) :=
  match argIdToDescr.foldlM (withDescrsItemUpdate (kwToPos c.subkernel.args))
      c.subkernel.args with
  | .error e => .error e
  | .ok newArgs =>
      let sub := { c.subkernel with args := newArgs }
      .ok ({ c with subkernel := sub, argIdToDescr := some argIdToDescr }, argIdToDescr)

/-- `CallableKernel.with_hw_axes_sizes(gsize, lsize)`: a copy whose
subkernel carries `GridOverrideForCalleeKernel(lsize, gsize)`. -/
def CallableKernelR.with_hw_axes_sizes (c : CallableKernelR)
    (gsize lsize : GridVal) : CallableKernelR :=
  { c with subkernel :=
      { c.subkernel with overriddenGridSizes := some (lsize, gsize) } }

/-! ## Scoped-function naming
(`loopy/kernel/function_interface.py`, `next_indexed_variable` lines
679-704 and `register_pymbolic_calls_to_knl_callables` lines 769-834)

`next_indexed_variable` works on the characters of a function name
(the regular expression `(?P<alpha>\S+?)_(?P<num>\d+?)$` anchored at both
ends), so names are `List Char` in this section. -/

/-- The decimal digit characters of a positive number, most significant
first (structural recursion on a fuel bound so that it reduces
definitionally). -/
def digitsOfPos : Nat → Nat → List Char
  | 0, _ => []
  | fuel + 1, n =>
      if n = 0 then []
      else digitsOfPos fuel (n / 10) ++ [Char.ofNat (48 + n % 10)]

/-- Python `str(n)` for a natural number. -/
def digitsOf (n : Nat) : List Char :=
  if n = 0 then ['0'] else digitsOfPos n n

/-- Python `int()` of a digit string (decimal value; leading zeros allowed). -/
def natOfDigitChars (ds : List Char) : Nat :=
  ds.foldl (fun a c => 10 * a + (c.toNat - 48)) 0

/-- The match of `^(?P<alpha>\S+?)_(?P<num>\d+?)$` against a name: succeeds
iff the name splits as `base ++ '_' :: digits` with `digits` a nonempty
all-digit suffix (necessarily the part after the *last* underscore, since
`num` is anchored at the end) and `base` nonempty and whitespace-free;
returns `(base, digits)`. -/
def parseTrailing (name : List Char) : Option (List Char × List Char) :=
  if ((name.reverse.drop ((name.reverse.takeWhile Char.isDigit).length)).head? = some '_')
      ∧ (name.reverse.takeWhile Char.isDigit) ≠ []
      ∧ (name.reverse.drop ((name.reverse.takeWhile Char.isDigit).length)).tail ≠ []
      ∧ ((name.reverse.drop ((name.reverse.takeWhile Char.isDigit).length)).tail).all
          (fun ch => !ch.isWhitespace) then
    some (((name.reverse.drop ((name.reverse.takeWhile Char.isDigit).length)).tail).reverse,
          (name.reverse.takeWhile Char.isDigit).reverse)
  else none

/-- Embedding of `next_indexed_variable(function)` for a `Variable`
function: `f_7 ↦ f_8`; otherwise append `0` after a trailing underscore,
else append `_0`.  (The `ArgExtOp`/`SegmentedOp` early return concerns
reduction operations, which never reach the naming loop.)  For the empty
name Python's `function.name[-1]` would raise; the embedding appends
`_0`, a case no theorem relies on. -/
def next_indexed_variable (name : List Char) : List Char :=
  match parseTrailing name with
  | some (base, ds) => base ++ '_' :: digitsOf (natOfDigitChars ds + 1)
  | none =>
      if name.getLast? = some '_' then name ++ ['0']
      else name ++ ['_', '0']

/-- The `while unique_var in scoped_names_to_functions` loop: keep taking
`next_indexed_variable` until the candidate is unused.  The fuel
`used.length + 1` is proved sufficient below (the candidate sequence never
repeats, so at most `|used|` candidates can be rejected). -/
def findFresh : Nat → List (List Char) → List Char → List Char
  | 0, _, cand => cand
  | fuel + 1, used, cand =>
      if cand ∈ used then findFresh fuel used (next_indexed_variable cand)
      else cand

/-- A resolved callable, as keyed (by value equality) in
`scoped_functions_to_names`. -/
inductive KCallable : Type where
  | scalar (s : ScalarCallableR) : KCallable
  | ckernel (c : CallableKernelR) : KCallable
  deriving DecidableEq

/-- `in_knl_callable.copy(name_in_target=u)` for a `CallableKernel`:
`ImmutableRecord.copy` re-runs `__init__`, which (because `name_in_target`
is now set) also renames the subkernel. -/
def ckSetNameInTarget (c : CallableKernelR) (u : List Char) : CallableKernelR :=
  let sub := { c.subkernel with name := String.mk u }
  { c with nameInTarget := some (String.mk u), subkernel := sub }

/-- A pymbolic call expression paired with the name of its `function`
(a `Variable` or the `ScopedFunction`'s underlying function); the rest of
the expression is opaque. -/
structure PCall : Type where
  funcName : List Char
  payload : String
  deriving DecidableEq

/-- The three dicts maintained by
`register_pymbolic_calls_to_knl_callables`. -/
structure NamingState : Type where
  scopedNamesToFunctions : List (List Char × KCallable)
  scopedFunctionsToNames : List (KCallable × List Char)
  pymbolicCallsToNewNames : List (PCall × List Char)

/-- The names currently occupying `scoped_names_to_functions` (the dict
keys, i.e. the `in` test of the while loop). -/
def usedNames (st : NamingState) : List (List Char) :=
  st.scopedNamesToFunctions.map Prod.fst

/-- `unique_var` as computed inside the loop: start from
`next_indexed_variable(pymbolic_call.function)` and keep renaming while the
candidate is a key of `scoped_names_to_functions`. -/
def freshName (st : NamingState) (call : PCall) : List Char :=
  findFresh ((usedNames st).length + 1) (usedNames st)
    (next_indexed_variable call.funcName)

/-- The `isinstance(in_knl_callable, CallableKernel)` rebinding:
`in_knl_callable = in_knl_callable.copy(name_in_target=unique_var)` for a
`CallableKernel`; scalar callables are left as they are. -/
def applyNameInTarget (cal : KCallable) (u : List Char) : KCallable :=
  match cal with
  | .ckernel c => .ckernel (ckSetNameInTarget c u)
  | other => other

/-- One iteration of the loop over
`pymbolic_exprs_to_knl_callables.items()`, with the call expression and the
callable as separate arguments. -/
def registerStepCore (st : NamingState) (call : PCall) (cal : KCallable) :
    NamingState :=
  match dictGet cal st.scopedFunctionsToNames with
  | some nm =>
      { st with pymbolicCallsToNewNames := dictSet call nm st.pymbolicCallsToNewNames }
  | none =>
      { scopedNamesToFunctions :=
          dictSet (freshName st call) (applyNameInTarget cal (freshName st call))
            st.scopedNamesToFunctions,
        scopedFunctionsToNames :=
          dictSet (applyNameInTarget cal (freshName st call)) (freshName st call)
            st.scopedFunctionsToNames,
        pymbolicCallsToNewNames :=
          dictSet call (freshName st call) st.pymbolicCallsToNewNames }

/-- One iteration of the loop over
`pymbolic_exprs_to_knl_callables.items()`. -/
def registerStep (st : NamingState) (pair : PCall × KCallable) : NamingState :=
  registerStepCore st pair.1 pair.2

/-- Embedding of the naming loop of
`register_pymbolic_calls_to_knl_callables`: starting from the kernel's
existing `scoped_functions` table and empty bookkeeping dicts, process the
call ↦ callable pairs in dict (insertion) order.  The subsequent rewriting
of the kernel's expressions by `ScopedFunctionNameChanger` consumes
`pymbolic_calls_to_new_names` and is outside the naming claim. -/
def register_pymbolic_calls_to_knl_callables
    (initialScoped : List (List Char × KCallable))
    (pairs : List (PCall × KCallable)) : NamingState :=
  pairs.foldl registerStep ⟨initialScoped, [], []⟩

/-- A name has canonical trailing digits: if it matches the
`alpha_num` pattern, its digit part is exactly the rendering of its value
(no leading zeros except `0` itself).  Every output of
`next_indexed_variable` satisfies this. -/
def canonName (name : List Char) : Prop :=
  ∀ p : List Char × List Char,
    parseTrailing name = some p → p.2 = digitsOf (natOfDigitChars p.2)

/-- The numeric component of a name (`0` when the pattern does not match). -/
def nameNum (name : List Char) : Nat :=
  match parseTrailing name with
  | some p => natOfDigitChars p.2
  | none => 0

/-- The strict order along which `next_indexed_variable` moves canonical
names: longer, or same length with a larger numeric component. -/
def nameLt (a b : List Char) : Prop :=
  a.length < b.length ∨ (a.length = b.length ∧ nameNum a < nameNum b)

instance (a b : List Char) : Decidable (nameLt a b) :=
  decidable_of_iff
    (a.length < b.length ∨ (a.length = b.length ∧ nameNum a < nameNum b))
    Iff.rfl

/-- Whether a callable is a `ScalarCallable` (as opposed to a
`CallableKernel`). -/
def KCallable.isScalar : KCallable → Bool
  | .scalar _ => true
  | .ckernel _ => false

/-- Invariant of the naming loop: every name assigned in
`scoped_functions_to_names` is a key of `scoped_names_to_functions`, the
assigned names are pairwise distinct, and the callable keys are pairwise
distinct. -/
def stInv (st : NamingState) : Prop :=
  (∀ nm ∈ st.scopedFunctionsToNames.map Prod.snd, nm ∈ usedNames st) ∧
  (st.scopedFunctionsToNames.map Prod.snd).Nodup ∧
  (st.scopedFunctionsToNames.map Prod.fst).Nodup

/-- A concrete `CallableKernel` value (no `name_in_target` yet). -/
def exCk : CallableKernelR := ⟨⟨"callee", [], none, "p"⟩, none, none, none⟩

/-- Two distinct call expressions to the function `func`. -/
def exPCall1 : PCall := ⟨"func".data, "site1"⟩

/-- A second call expression to the same function `func`. -/
def exPCall2 : PCall := ⟨"func".data, "site2"⟩

/-- A concrete `ScalarCallable` value. -/
def exSc : ScalarCallableR := ⟨"func", none, none, none⟩

/-- Two call sites resolving to the same (by value) scalar callable. -/
def exScalarPairs : List (PCall × KCallable) :=
  [(exPCall1, .scalar exSc), (exPCall2, .scalar exSc)]

/-! ## Theorems -/

/-- C9: for every Instruction constructed with its expression supplied as a
string, the constructor parses that string and stores the parsed result in
the assignee field, while the expression field retains the unparsed string;
the supplied assignee argument is discarded in that case (the constructed
record does not depend on it). -/
theorem instructionInit_string_expression_overwrites_assignee
    (id : String) (a : StrOrExpr) (s : String) (forced deps : Finset String) :
    (instructionInit id a (.str s) forced deps).assignee = .expr (.parsed s) ∧
    (instructionInit id a (.str s) forced deps).expression = .str s ∧
    ∀ a', instructionInit id a' (.str s) forced deps =
      instructionInit id a (.str s) forced deps := by
  refine ⟨?_, ?_, ?_⟩
  · cases a <;> rfl
  · cases a <;> rfl
  · intro a'
    cases a <;> cases a' <;> rfl

/-- C10: for every kernel, `reader_map` returns `None` rather than the
mapping from variable names to reading-instruction ids that its body
builds, regardless of the kernel's instructions. -/
theorem reader_map_returns_none (k : LKernel0) : reader_map k = none := rfl

/-- C3 counterexample: the decomposition of the linear offset is *not*
performed "largest stride first".  For a caller array whose dimension
strides are `[1, 3]` (not in decreasing order, e.g. column-major) and a
callee access with stride `[1]` at index `4`, the source's
`map_subscript` yields the index tuple `[4, 0]` (dimension-declaration
order), whereas the claim's largest-stride-first decomposition of the same
linear offset yields `[1, 1]`. -/
theorem map_subscript_largest_stride_first_refuted :
    map_subscript "a" [Dim.const 6] [0, 0] [1, 3] [1] [4] = .ok [4, 0] ∧
    claimDecomposeLargestFirst (flattenIndex [0, 0] [1, 3] [4] [1]) [1, 3] = [1, 1] ∧
    ([4, 0] : List Int) ≠ [1, 1] := by
  refine ⟨rfl, by decide, by decide⟩

/-- C7 failing input, evaluated: for a bound callee array argument whose
shape contains a symbolic dimension, `map_subscript` raises `IndexError`
(the `LoopyError` message template has two replacement fields but
`.format` receives only one argument, so building the message fails
first), not the intended `LoopyError`/NonConstantShapeError, and no index
tuple is produced. -/
theorem map_subscript_symbolic_shape_raises_index_error :
    map_subscript "arg_a" [Dim.sym "n"] [0] [1] [1] [0] = .error .indexError ∧
    ∀ msg, map_subscript "arg_a" [Dim.sym "n"] [0] [1] [1] [0] ≠
      .error (.loopyError msg) := by
  refine ⟨rfl, ?_⟩
  intro msg h
  exact PyErr.noConfusion (Except.error.inj h)

/-- C6 failing input, evaluated: the arity sanity check of
`register_callable_kernel` never fires for a real call.  A caller calling
`"twice"` with two assignees and three parameters, against a callee
declaring one output and one input argument, passes the check with no
error (the source compares the call's function name against the string
literal `'function_name'`); and even a call whose function is literally
named `"function_name"` with matching arity raises `LoopyError` (the
comparison `insn.assignees != expected_num_assignees` puts a tuple against
an int, which never compare equal). -/
theorem register_callable_kernel_check_misses_arity_mismatch :
    register_callable_kernel_check
      [⟨"c0", .callInsn "twice" ["a", "b"] ["x", "y", "z"]⟩]
      [⟨"out1", true⟩, ⟨"in1", false⟩] = .ok () ∧
    (∃ msg, register_callable_kernel_check
      [⟨"c1", .callInsn "function_name" ["a"] ["x"]⟩]
      [⟨"out1", true⟩, ⟨"in1", false⟩] = .error (.loopyError msg)) := by
  exact ⟨rfl, _, rfl⟩

theorem zipWith_mul_decompose_zero (strides : List Int) :
    (List.zipWith (· * ·) strides (decomposeByStrides 0 strides)).sum = 0 := by
  induction strides with
  | nil => simp [decomposeByStrides]
  | cons st rest ih =>
      simp [decomposeByStrides, Int.zero_fdiv, ih]

theorem decompose_length (flatten : Int) (strides : List Int) :
    (decomposeByStrides flatten strides).length = strides.length := by
  induction strides generalizing flatten with
  | nil => rfl
  | cons st rest ih => simp [decomposeByStrides, ih]

theorem dictSet_eq_append {K V : Type} [DecidableEq K] (k : K) (v : V)
    (l : List (K × V)) (h : ∀ p ∈ l, p.1 ≠ k) :
    dictSet k v l = l ++ [(k, v)] := by
  induction l with
  | nil => rfl
  | cons p rest ih =>
      have hp : p.1 ≠ k := h p (List.mem_cons_self p rest)
      obtain ⟨k', v'⟩ := p
      simp only [dictSet, if_neg hp]
      rw [ih (fun q hq => h q (List.mem_cons_of_mem _ hq))]
      simp

theorem sortByStrideDesc_of_sorted (l : List (Nat × Int))
    (h : l.Pairwise (fun p q => q.2 < p.2)) : sortByStrideDesc l = l := by
  induction l with
  | nil => rfl
  | cons p rest ih =>
      have : sortByStrideDesc (p :: rest) = insertByStrideDesc p (sortByStrideDesc rest) := rfl
      rw [this, ih h.tail]
      cases rest with
      | nil => rfl
      | cons q rest' =>
          have hq : q.2 < p.2 := (List.pairwise_cons.mp h).1 q (List.mem_cons_self q rest')
          simp [insertByStrideDesc, hq]

theorem snd_mem_of_mem_enumFrom {α : Type} {l : List α} {n : Nat} {p : Nat × α}
    (h : p ∈ l.enumFrom n) : p.2 ∈ l := by
  induction l generalizing n with
  | nil => simp at h
  | cons a rest ih =>
      rw [List.enumFrom_cons, List.mem_cons] at h
      rcases h with h | h
      · subst h; exact List.mem_cons_self _ _
      · exact List.mem_cons_of_mem _ (ih h)

theorem enumFrom_pairwise_stride_desc (l : List Int) (k : Nat)
    (h : l.Pairwise (· > ·)) :
    (List.enumFrom k l).Pairwise (fun p q => q.2 < p.2) := by
  induction l generalizing k with
  | nil => simp
  | cons a rest ih =>
      rw [List.enumFrom_cons, List.pairwise_cons]
      refine ⟨?_, ih (k + 1) h.tail⟩
      intro q hq
      exact (List.pairwise_cons.mp h).1 q.2 (snd_mem_of_mem_enumFrom hq)

theorem claimLF_foldl_quots (strides : List Int) (flatten : Int) (k : Nat)
    (acc : List (Nat × Int)) (hacc : ∀ p ∈ acc, p.1 < k) :
    ((List.enumFrom k strides).foldl
        (fun (acc : Int × List (Nat × Int)) p =>
          let ind := acc.1.fdiv p.2
          (acc.1 - p.2 * ind, dictSet p.1 ind acc.2))
        (flatten, acc)).2 =
      acc ++ List.zip (List.range' k strides.length)
        (decomposeByStrides flatten strides) := by
  induction strides generalizing flatten k acc with
  | nil => simp [decomposeByStrides]
  | cons st rest ih =>
      rw [List.enumFrom_cons, List.foldl_cons]
      have hset : dictSet k (flatten.fdiv st) acc = acc ++ [(k, flatten.fdiv st)] :=
        dictSet_eq_append _ _ _ (fun p hp => Nat.ne_of_lt (hacc p hp))
      simp only [hset]
      rw [ih (flatten - st * flatten.fdiv st) (k + 1)
        (acc ++ [(k, flatten.fdiv st)])
        (by
          intro p hp
          rcases List.mem_append.mp hp with h1 | h1
          · exact Nat.lt_succ_of_lt (hacc p h1)
          · simp at h1
            subst h1
            exact Nat.lt_succ_self k)]
      simp [decomposeByStrides, List.range'_succ, List.append_assoc]

theorem dictGet_zip_range' (l : List Int) (k i : Nat) (hi : i < l.length) :
    dictGet (k + i) (List.zip (List.range' k l.length) l) = some (l.getD i 0) := by
  induction l generalizing k i with
  | nil => simp at hi
  | cons a rest ih =>
      have hr : List.range' k (a :: rest).length = k :: List.range' (k + 1) rest.length := by
        rw [List.length_cons, List.range'_succ]
      rw [hr, List.zip_cons_cons]
      cases i with
      | zero => simp [dictGet]
      | succ j =>
          have hne : ¬ (k = k + 1 + j) := by omega
          have hkj : k + (j + 1) = (k + 1) + j := by omega
          simp only [dictGet, hkj, if_neg hne, List.getD_cons_succ]
          exact ih (k + 1) j (Nat.lt_of_succ_lt_succ hi)

theorem claimLF_eq_decompose_of_sorted (flatten : Int) (strides : List Int)
    (h : strides.Pairwise (· > ·)) :
    claimDecomposeLargestFirst flatten strides = decomposeByStrides flatten strides := by
  unfold claimDecomposeLargestFirst
  have hsort : sortByStrideDesc strides.enum = strides.enum :=
    sortByStrideDesc_of_sorted _ (by
      have := enumFrom_pairwise_stride_desc strides 0 h
      simpa [List.enum] using this)
  simp only [hsort]
  have hq := claimLF_foldl_quots strides flatten 0 [] (by simp)
  simp only [List.enum] at hq ⊢
  rw [hq]
  simp only [List.nil_append]
  have hlen : strides.length = (decomposeByStrides flatten strides).length :=
    (decompose_length flatten strides).symm
  apply List.ext_getElem
  · simp [decompose_length]
  · intro i h1 h2
    have hi : i < strides.length := by simpa using h1
    have hd : i < (decomposeByStrides flatten strides).length := by
      simpa [decompose_length] using hi
    have hg := dictGet_zip_range' (decomposeByStrides flatten strides) 0 i hd
    simp only [Nat.zero_add] at hg
    rw [List.getElem_map, List.getElem_range, hlen, hg]
    simp [List.getD_eq_getElem?_getD, List.getElem?_eq_getElem hd]

/-- C3 (amended): for every inlined subscript of a bound array argument
with fully constant shape, the rewritten index is the decomposition of the
linear offset (caller slice's base offset against the caller strides, plus
the index-times-stride sum over the callee's dimension tags) by successive
floor-division/remainder against the caller array's dimension strides *in
dimension-declaration order* — which coincides with largest-stride-first
whenever the caller's strides are strictly decreasing (e.g. row-major).
In particular a callee `a` of shape `[6]` accessed as `a[i]` inlined
against a caller array `b` of shape `[3, 2]` (strides `[2, 1]`) rewrites
`a[i]` to `b[i // 2, i % 2]`, and the decomposition inverts the
flattening (same linear element) whenever a unit stride is present. -/
theorem map_subscript_rewrites_in_dimension_order :
    (∀ (reprS : String) (shape : List Dim)
        (sarBegin callerStrides calleeStrides outerIndices : List Int),
        shape.all Dim.isIntegral = true →
        map_subscript reprS shape sarBegin callerStrides calleeStrides outerIndices =
          .ok (decomposeByStrides
            (flattenIndex sarBegin callerStrides outerIndices calleeStrides)
            callerStrides)) ∧
    (∀ i : Int, map_subscript "a" [Dim.const 6] [0, 0] [2, 1] [1] [i] =
        .ok [i.fdiv 2, i.fmod 2]) ∧
    (∀ (flatten : Int) (strides : List Int), (1 : Int) ∈ strides →
        (List.zipWith (· * ·) strides (decomposeByStrides flatten strides)).sum =
          flatten) ∧
    (∀ (flatten : Int) (strides : List Int), strides.Pairwise (· > ·) →
        claimDecomposeLargestFirst flatten strides =
          decomposeByStrides flatten strides) := by
  refine ⟨?_, ?_, ?_, claimLF_eq_decompose_of_sorted⟩
  · intro reprS shape sarBegin callerStrides calleeStrides outerIndices h
    simp [map_subscript, h]
  · intro i
    have h2 : i - 2 * i.fdiv 2 = i.fmod 2 := by
      rw [Int.fmod_def]
    simp [map_subscript, Dim.isIntegral, flattenIndex, decomposeByStrides,
      Int.fdiv_one, h2]
  · intro flatten strides h
    induction strides generalizing flatten with
    | nil => simp at h
    | cons st rest ih =>
        simp only [decomposeByStrides, List.zipWith_cons_cons, List.sum_cons]
        rcases List.mem_cons.mp h with h1 | h1
        · subst h1
          simp [Int.fdiv_one, zipWith_mul_decompose_zero]
        · rw [ih _ h1]
          ring

/-- Witness for `map_subscript_rewrites_in_dimension_order`: the
conjuncts' hypotheses discharged at concrete inputs. -/
theorem map_subscript_rewrites_in_dimension_order_witness :
    map_subscript "a" [Dim.const 6] [0, 1] [2, 1] [1] [5] =
      .ok (decomposeByStrides (flattenIndex [0, 1] [2, 1] [5] [1]) [2, 1]) ∧
    map_subscript "a" [Dim.const 6] [0, 0] [2, 1] [1] [(5 : Int)] =
      .ok [(5 : Int).fdiv 2, (5 : Int).fmod 2] ∧
    (List.zipWith (· * ·) [2, 1] (decomposeByStrides 7 [2, 1])).sum = 7 ∧
    claimDecomposeLargestFirst 7 [2, 1] = decomposeByStrides 7 [2, 1] := by
  refine ⟨map_subscript_rewrites_in_dimension_order.1 "a" [Dim.const 6] [0, 1]
      [2, 1] [1] [5] (by decide),
    map_subscript_rewrites_in_dimension_order.2.1 5,
    map_subscript_rewrites_in_dimension_order.2.2.1 7 [2, 1] (by decide),
    map_subscript_rewrites_in_dimension_order.2.2.2 7 [2, 1] (by decide)⟩

theorem foldl_update_eq_of_forall_ne {α β : Type} (l : List α)
    (key : α → String) (val : α → β) (m : String → β) (x : String)
    (hx : ∀ a ∈ l, key a ≠ x) :
    (l.foldl (fun m a => Function.update m (key a) (val a)) m) x = m x := by
  induction l generalizing m with
  | nil => rfl
  | cons a rest ih =>
      rw [List.foldl_cons, ih _ (fun b hb => hx b (List.mem_cons_of_mem _ hb))]
      exact Function.update_noteq (fun h => hx a (List.mem_cons_self a rest) h.symm) _ _

theorem foldl_update_eq_val {α β : Type} (l : List α)
    (key : α → String) (val : α → β) (m : String → β) (a : α)
    (ha : a ∈ l) (hnodup : (l.map key).Nodup) :
    (l.foldl (fun m b => Function.update m (key b) (val b)) m) (key a) = val a := by
  induction l generalizing m with
  | nil => simp at ha
  | cons b rest ih =>
      rw [List.foldl_cons]
      rcases List.mem_cons.mp ha with h | h
      · subst h
        have hx : ∀ c ∈ rest, key c ≠ key a := by
          intro c hc
          have := (List.nodup_cons.mp hnodup).1
          intro hkey
          exact this (hkey ▸ List.mem_map_of_mem key hc)
        rw [foldl_update_eq_of_forall_ne rest key val _ (key a) hx]
        simp
      · exact ih _ h (List.nodup_cons.mp hnodup).2

theorem mem_calleeIds {insns : List RInsn} {x : String} :
    x ∈ calleeIds insns ↔ x ∈ insns.map RInsn.id := by
  induction insns with
  | nil => simp [calleeIds]
  | cons a rest ih =>
      show x ∈ insert a.id (calleeIds rest) ↔ _
      simp [ih]

theorem depMapDirect_eq_empty_of_not_mem {insns : List RInsn} {x : String}
    (hx : x ∉ insns.map RInsn.id) : depMapDirect insns x = ∅ := by
  unfold depMapDirect
  exact foldl_update_eq_of_forall_ne insns RInsn.id RInsn.depends_on _ x
    (fun a ha h => hx (h ▸ List.mem_map_of_mem RInsn.id ha))

theorem depMapDirect_eq {insns : List RInsn} {insn : RInsn} (h : insn ∈ insns)
    (hnodup : (insns.map RInsn.id).Nodup) :
    depMapDirect insns insn.id = insn.depends_on :=
  foldl_update_eq_val insns RInsn.id RInsn.depends_on _ insn h hnodup

theorem recExpand_vanish {S : Finset String} {F : String → Finset String}
    (hz : ∀ i, i ∉ S → F i = ∅) :
    ∀ i, i ∉ S → recExpand F i = ∅ := by
  intro i hi
  simp [recExpand, hz i hi]

theorem recExpand_biUnion {S : Finset String} {F : String → Finset String}
    (hz : ∀ i, i ∉ S → F i = ∅) :
    S.biUnion (recExpand F) = S.biUnion F := by
  apply Finset.Subset.antisymm
  · intro x hx
    rw [Finset.mem_biUnion] at hx ⊢
    obtain ⟨i, hi, hxi⟩ := hx
    rw [recExpand, Finset.mem_union] at hxi
    rcases hxi with h | h
    · exact ⟨i, hi, h⟩
    · rw [Finset.mem_biUnion] at h
      obtain ⟨d, hd, hxd⟩ := h
      by_cases hdc : d ∈ S
      · exact ⟨d, hdc, hxd⟩
      · rw [hz d hdc] at hxd
        simp at hxd
  · intro x hx
    rw [Finset.mem_biUnion] at hx ⊢
    obtain ⟨i, hi, hxi⟩ := hx
    exact ⟨i, hi, by rw [recExpand]; exact Finset.mem_union_left _ hxi⟩

theorem recExpand_empty_iff (F : String → Finset String) (i : String) :
    recExpand F i = ∅ ↔ F i = ∅ := by
  constructor
  · intro h
    rw [recExpand] at h
    exact (Finset.union_eq_empty.mp h).1
  · intro h
    simp [recExpand, h]

theorem recIter_vanish (insns : List RInsn) (k : Nat) :
    ∀ i, i ∉ calleeIds insns → (recExpand^[k] (depMapDirect insns)) i = ∅ := by
  induction k with
  | zero =>
      intro i hi
      exact depMapDirect_eq_empty_of_not_mem (fun h => hi (mem_calleeIds.mpr h))
  | succ m ih =>
      rw [Function.iterate_succ_apply']
      exact recExpand_vanish ih

theorem recMap_vanish (insns : List RInsn) :
    ∀ i, i ∉ calleeIds insns → recursive_insn_dep_map insns i = ∅ :=
  recIter_vanish insns insns.length

theorem recMap_biUnion (insns : List RInsn) :
    (calleeIds insns).biUnion (recursive_insn_dep_map insns) =
      (calleeIds insns).biUnion (depMapDirect insns) := by
  unfold recursive_insn_dep_map
  induction insns.length with
  | zero => rfl
  | succ k ih =>
      rw [Function.iterate_succ_apply', recExpand_biUnion (recIter_vanish insns k), ih]

theorem recIter_empty_iff (insns : List RInsn) (k : Nat) (i : String) :
    (recExpand^[k] (depMapDirect insns)) i = ∅ ↔ depMapDirect insns i = ∅ := by
  induction k with
  | zero => exact Iff.rfl
  | succ m ih =>
      rw [Function.iterate_succ_apply', recExpand_empty_iff, ih]

theorem mem_biUnion_direct {insns : List RInsn}
    (hnodup : (insns.map RInsn.id).Nodup) {x : String} :
    x ∈ (calleeIds insns).biUnion (depMapDirect insns) ↔
      ∃ insn ∈ insns, x ∈ insn.depends_on := by
  rw [Finset.mem_biUnion]
  constructor
  · rintro ⟨j, hj, hx⟩
    rw [mem_calleeIds, List.mem_map] at hj
    obtain ⟨insn, hi, rfl⟩ := hj
    rw [depMapDirect_eq hi hnodup] at hx
    exact ⟨insn, hi, hx⟩
  · rintro ⟨insn, hi, hx⟩
    exact ⟨insn.id, mem_calleeIds.mpr (List.mem_map_of_mem _ hi),
      by rw [depMapDirect_eq hi hnodup]; exact hx⟩

theorem mem_spliceHeads {insns : List RInsn} {insn : RInsn} (h : insn ∈ insns)
    (hnodup : (insns.map RInsn.id).Nodup) :
    insn.id ∈ spliceHeads insns ↔ insn.depends_on = ∅ := by
  unfold spliceHeads recursive_insn_dep_map
  rw [Finset.mem_filter]
  rw [recIter_empty_iff, depMapDirect_eq h hnodup]
  simp [mem_calleeIds, List.mem_map_of_mem RInsn.id h]

theorem mem_spliceTails {insns : List RInsn} {x : String}
    (hnodup : (insns.map RInsn.id).Nodup) :
    x ∈ spliceTails insns ↔
      x ∈ calleeIds insns ∧ ∀ insn ∈ insns, x ∉ insn.depends_on := by
  unfold spliceTails
  rw [Finset.mem_sdiff, recMap_biUnion, mem_biUnion_direct hnodup]
  simp only [not_exists, not_and]

theorem noopEnd_mem_innerInsns (calleeInsns : List RInsn) (call : RInsn)
    (rename inameMap exprT : String → String) (startId : String) :
    noopEnd calleeInsns call rename ∈
      innerInsns calleeInsns call rename inameMap exprT startId := by
  simp [innerInsns]

theorem splicedInsn_mem_innerInsns {calleeInsns : List RInsn} (call : RInsn)
    (rename inameMap exprT : String → String) (startId : String)
    {insn : RInsn} (h : insn ∈ calleeInsns) :
    splicedInsn calleeInsns call rename inameMap exprT startId insn ∈
      innerInsns calleeInsns call rename inameMap exprT startId := by
  unfold innerInsns
  exact List.mem_cons_of_mem _
    (List.mem_append_left _ (List.mem_map_of_mem _ h))

theorem spliced_reachable_from_end (calleeInsns : List RInsn) (call : RInsn)
    (rename inameMap exprT : String → String) (startId : String)
    (hnodup : (calleeInsns.map RInsn.id).Nodup)
    (rank : String → Nat)
    (hrank : ∀ insn ∈ calleeInsns, ∀ d ∈ insn.depends_on, rank d < rank insn.id) :
    ∀ insn ∈ calleeInsns,
      Relation.ReflTransGen
        (waitsOn (innerInsns calleeInsns call rename inameMap exprT startId))
        (noopEnd calleeInsns call rename)
        (splicedInsn calleeInsns call rename inameMap exprT startId insn) := by
  set inner := innerInsns calleeInsns call rename inameMap exprT startId with hinner
  have hend : noopEnd calleeInsns call rename ∈ inner :=
    noopEnd_mem_innerInsns calleeInsns call rename inameMap exprT startId
  -- measure: how many callee ids have strictly larger rank
  suffices H : ∀ n, ∀ insn ∈ calleeInsns,
      ((calleeIds calleeInsns).filter (fun j => rank insn.id < rank j)).card ≤ n →
      Relation.ReflTransGen (waitsOn inner) (noopEnd calleeInsns call rename)
        (splicedInsn calleeInsns call rename inameMap exprT startId insn) by
    intro insn h
    exact H _ insn h le_rfl
  intro n
  induction n with
  | zero =>
      intro insn h hμ
      by_cases htail : insn.id ∈ spliceTails calleeInsns
      · refine Relation.ReflTransGen.single ⟨hend,
          splicedInsn_mem_innerInsns call rename inameMap exprT startId h, ?_⟩
        exact Finset.mem_image_of_mem rename htail
      · exfalso
        rw [mem_spliceTails hnodup] at htail
        push_neg at htail
        obtain ⟨y, hy, hmem⟩ :=
          htail (mem_calleeIds.mpr (List.mem_map_of_mem RInsn.id h))
        have h1 : y.id ∈ (calleeIds calleeInsns).filter
            (fun j => rank insn.id < rank j) := by
          rw [Finset.mem_filter]
          exact ⟨mem_calleeIds.mpr (List.mem_map_of_mem RInsn.id hy),
            hrank y hy insn.id hmem⟩
        have : 0 < ((calleeIds calleeInsns).filter
            (fun j => rank insn.id < rank j)).card :=
          Finset.card_pos.mpr ⟨y.id, h1⟩
        omega
  | succ k ih =>
      intro insn h hμ
      by_cases htail : insn.id ∈ spliceTails calleeInsns
      · refine Relation.ReflTransGen.single ⟨hend,
          splicedInsn_mem_innerInsns call rename inameMap exprT startId h, ?_⟩
        exact Finset.mem_image_of_mem rename htail
      · rw [mem_spliceTails hnodup] at htail
        push_neg at htail
        obtain ⟨y, hy, hmem⟩ :=
          htail (mem_calleeIds.mpr (List.mem_map_of_mem RInsn.id h))
        have hstep : waitsOn inner
            (splicedInsn calleeInsns call rename inameMap exprT startId y)
            (splicedInsn calleeInsns call rename inameMap exprT startId insn) := by
          refine ⟨splicedInsn_mem_innerInsns call rename inameMap exprT startId hy,
            splicedInsn_mem_innerInsns call rename inameMap exprT startId h, ?_⟩
          show rename insn.id ∈ _
          unfold splicedInsn
          exact Finset.mem_union_left _
            (Finset.mem_union_left _ (Finset.mem_image_of_mem rename hmem))
        have hlt : rank insn.id < rank y.id := hrank y hy insn.id hmem
        have hsub : (calleeIds calleeInsns).filter (fun j => rank y.id < rank j) ⊆
            (calleeIds calleeInsns).filter (fun j => rank insn.id < rank j) := by
          intro j hj
          rw [Finset.mem_filter] at hj ⊢
          exact ⟨hj.1, lt_trans hlt hj.2⟩
        have hss : (calleeIds calleeInsns).filter (fun j => rank y.id < rank j) ⊂
            (calleeIds calleeInsns).filter (fun j => rank insn.id < rank j) := by
          rw [Finset.ssubset_iff_of_subset hsub]
          refine ⟨y.id, ?_, ?_⟩
          · rw [Finset.mem_filter]
            exact ⟨mem_calleeIds.mpr (List.mem_map_of_mem RInsn.id hy), hlt⟩
          · intro hc
            rw [Finset.mem_filter] at hc
            exact absurd hc.2 (lt_irrefl _)
        have hμy : ((calleeIds calleeInsns).filter
            (fun j => rank y.id < rank j)).card ≤ k := by
          have := Finset.card_lt_card hss
          omega
        exact (ih y hy hμy).tail hstep

/-- C4: inlining a call instruction brackets the spliced body with two
synthetic no-op instructions: the start marker carries the original call's
dependency set and every spliced instruction without internal dependencies
(a root) additionally depends on it; the end marker takes over the call's
id and depends on exactly the renamed spliced instructions on which
nothing else inside the splice depends (the leaves).  Consequently the
ordering constraints involving the call are preserved: every spliced
instruction carries the call's dependencies, and (for an acyclic callee
dependency graph, witnessed by a topological rank) the end marker
transitively waits on every spliced instruction, so external dependents of
the call's id wait for the whole inlined body. -/
theorem inline_call_dependency_splicing
    (kernelInsns calleeInsns : List RInsn) (call : RInsn)
    (rename inameMap exprT : String → String) (startId : String)
    (hnodup : (calleeInsns.map RInsn.id).Nodup)
    (rank : String → Nat)
    (hrank : ∀ insn ∈ calleeInsns, ∀ d ∈ insn.depends_on, rank d < rank insn.id) :
    -- (a) the call instruction is replaced by the bracketed splice
    (inlineInstructionList kernelInsns calleeInsns call rename inameMap exprT startId =
        kernelInsns.flatMap (fun insn =>
          if insn = call
          then noopStart call startId ::
            calleeInsns.map (splicedInsn calleeInsns call rename inameMap exprT startId) ++
            [noopEnd calleeInsns call rename]
          else [insn]) ∧
      (noopStart call startId).isNoOp = true ∧
      (noopEnd calleeInsns call rename).isNoOp = true) ∧
    -- (b) the start marker carries the call's dependency set
    (noopStart call startId).depends_on = call.depends_on ∧
    -- (c) every root additionally depends on the start marker
    (∀ insn ∈ calleeInsns, insn.depends_on = ∅ →
      startId ∈ (splicedInsn calleeInsns call rename inameMap exprT startId insn).depends_on) ∧
    -- (d) the end marker takes the call's id and depends on the renamed leaves
    ((noopEnd calleeInsns call rename).id = call.id ∧
      (noopEnd calleeInsns call rename).depends_on =
        ((calleeIds calleeInsns).filter
          (fun x => ∀ insn ∈ calleeInsns, x ∉ insn.depends_on)).image rename) ∧
    -- (e) ordering preservation
    (∀ insn ∈ calleeInsns, call.depends_on ⊆
      (splicedInsn calleeInsns call rename inameMap exprT startId insn).depends_on) ∧
    (∀ insn ∈ calleeInsns,
      Relation.ReflTransGen
        (waitsOn (innerInsns calleeInsns call rename inameMap exprT startId))
        (noopEnd calleeInsns call rename)
        (splicedInsn calleeInsns call rename inameMap exprT startId insn)) := by
  refine ⟨⟨rfl, rfl, rfl⟩, rfl, ?_, ⟨rfl, ?_⟩, ?_, ?_⟩
  · intro insn h hdep
    unfold splicedInsn
    refine Finset.mem_union_right _ ?_
    rw [if_pos ((mem_spliceHeads h hnodup).mpr hdep)]
    exact Finset.mem_singleton_self startId
  · show Finset.image rename (spliceTails calleeInsns) = _
    congr 1
    apply Finset.ext
    intro x
    rw [mem_spliceTails hnodup, Finset.mem_filter]
  · intro insn h
    unfold splicedInsn
    intro d hd
    exact Finset.mem_union_left _ (Finset.mem_union_right _ hd)
  · exact spliced_reachable_from_end calleeInsns call rename inameMap exprT startId
      hnodup rank hrank

/-- Witness for `inline_call_dependency_splicing`: the hypotheses
discharged on the concrete two-instruction callee. -/
theorem inline_call_dependency_splicing_witness :
    (inlineInstructionList [exCall] exCalleeInsns exCall exRename id id "call__start" =
        [exCall].flatMap (fun insn =>
          if insn = exCall
          then noopStart exCall "call__start" ::
            exCalleeInsns.map
              (splicedInsn exCalleeInsns exCall exRename id id "call__start") ++
            [noopEnd exCalleeInsns exCall exRename]
          else [insn]) ∧
      (noopStart exCall "call__start").isNoOp = true ∧
      (noopEnd exCalleeInsns exCall exRename).isNoOp = true) ∧
    (noopStart exCall "call__start").depends_on = exCall.depends_on ∧
    (∀ insn ∈ exCalleeInsns, insn.depends_on = ∅ →
      "call__start" ∈
        (splicedInsn exCalleeInsns exCall exRename id id "call__start" insn).depends_on) ∧
    ((noopEnd exCalleeInsns exCall exRename).id = exCall.id ∧
      (noopEnd exCalleeInsns exCall exRename).depends_on =
        ((calleeIds exCalleeInsns).filter
          (fun x => ∀ insn ∈ exCalleeInsns, x ∉ insn.depends_on)).image exRename) ∧
    (∀ insn ∈ exCalleeInsns, exCall.depends_on ⊆
      (splicedInsn exCalleeInsns exCall exRename id id "call__start" insn).depends_on) ∧
    (∀ insn ∈ exCalleeInsns,
      Relation.ReflTransGen
        (waitsOn (innerInsns exCalleeInsns exCall exRename id id "call__start"))
        (noopEnd exCalleeInsns exCall exRename)
        (splicedInsn exCalleeInsns exCall exRename id id "call__start" insn)) :=
  inline_call_dependency_splicing [exCall] exCalleeInsns exCall exRename id id
    "call__start" (by decide) exRank (by decide)

theorem foldl_inter_subset (s aMap : InameState) (init : Finset String)
    (l : List String) :
    l.foldl (fun acc w' => acc ∩ (s w' \ aMap w')) init ⊆ init := by
  induction l generalizing init with
  | nil => exact Finset.Subset.refl _
  | cons w rest ih =>
      rw [List.foldl_cons]
      exact (ih _).trans (Finset.inter_subset_left)

theorem implicitInames_subset {aMap s : InameState} {ws : List String}
    {impl : Finset String} (h : implicitInames aMap s ws = some impl)
    (U : Finset String) (hU : ∀ x, s x ⊆ U) : impl ⊆ U := by
  cases ws with
  | nil => simp [implicitInames] at h
  | cons w rest =>
      rw [implicitInames, Option.some_inj] at h
      subst h
      exact (foldl_inter_subset _ _ _ _).trans
        ((Finset.sdiff_subset).trans (hU w))

theorem implicitInames_none_iff {aMap s : InameState} {ws : List String} :
    implicitInames aMap s ws = none ↔ ws = [] := by
  cases ws <;> simp [implicitInames]

theorem tvUpdate_fst_ne (aMap : InameState) (wm : WriterMap) (insn : Insn0)
    (acc : InameState × Bool) (tv : String) {x : String} (hx : x ≠ insn.id) :
    (tvUpdate aMap wm insn acc tv).1 x = acc.1 x := by
  unfold tvUpdate
  cases implicitInames aMap acc.1 (wm tv) with
  | none => rfl
  | some impl => exact Function.update_noteq hx _ _

theorem tvUpdate_flag_mono (aMap : InameState) (wm : WriterMap) (insn : Insn0)
    (acc : InameState × Bool) (tv : String) (h : acc.2 = true) :
    (tvUpdate aMap wm insn acc tv).2 = true := by
  unfold tvUpdate
  cases implicitInames aMap acc.1 (wm tv) with
  | none => exact h
  | some impl => simp [h]

theorem tvUpdate_flag_false {aMap : InameState} {wm : WriterMap} {insn : Insn0}
    {acc : InameState × Bool} {tv : String}
    (h : (tvUpdate aMap wm insn acc tv).2 = false) :
    acc.2 = false ∧ (tvUpdate aMap wm insn acc tv).1 = acc.1 := by
  unfold tvUpdate at h ⊢
  cases himp : implicitInames aMap acc.1 (wm tv) with
  | none =>
      rw [himp] at h
      exact ⟨h, rfl⟩
  | some impl =>
      rw [himp] at h
      simp only [Bool.or_eq_false_iff, decide_eq_false_iff_not, not_not] at h
      refine ⟨h.1, ?_⟩
      show Function.update acc.1 insn.id ((acc.1 insn.id ∪ impl) \ insn.reductionInames) = acc.1
      rw [h.2]
      exact Function.update_eq_self _ _

theorem tvUpdate_mono {aMap : InameState} {wm : WriterMap} {insn : Insn0}
    {acc : InameState × Bool} {tv : String}
    (hd : acc.1 insn.id ∩ insn.reductionInames = ∅) :
    acc.1 insn.id ⊆ (tvUpdate aMap wm insn acc tv).1 insn.id ∧
      (tvUpdate aMap wm insn acc tv).1 insn.id ∩ insn.reductionInames = ∅ := by
  unfold tvUpdate
  cases implicitInames aMap acc.1 (wm tv) with
  | none => exact ⟨Finset.Subset.refl _, hd⟩
  | some impl =>
      simp only [Function.update_same]
      constructor
      · intro x hx
        rw [Finset.mem_sdiff]
        refine ⟨Finset.mem_union_left _ hx, fun hR => ?_⟩
        have : x ∈ acc.1 insn.id ∩ insn.reductionInames := Finset.mem_inter.mpr ⟨hx, hR⟩
        rw [hd] at this
        exact absurd this (Finset.not_mem_empty x)
      · rw [Finset.eq_empty_iff_forall_not_mem]
        intro x hx
        rw [Finset.mem_inter, Finset.mem_sdiff] at hx
        exact hx.1.2 hx.2

theorem tvUpdate_direct_sub {aMap : InameState} {wm : WriterMap} {insn : Insn0}
    {acc : InameState × Bool} {tv : String} {D : Finset String}
    (h : D \ insn.reductionInames ⊆ acc.1 insn.id) :
    D \ insn.reductionInames ⊆ (tvUpdate aMap wm insn acc tv).1 insn.id := by
  unfold tvUpdate
  cases implicitInames aMap acc.1 (wm tv) with
  | none => exact h
  | some impl =>
      simp only [Function.update_same]
      intro x hx
      rw [Finset.mem_sdiff] at hx
      rw [Finset.mem_sdiff]
      exact ⟨Finset.mem_union_left _ (h (Finset.mem_sdiff.mpr hx)), hx.2⟩

theorem tvUpdate_clears {aMap : InameState} {wm : WriterMap} {insn : Insn0}
    {acc : InameState × Bool} {tv : String} (hw : wm tv ≠ []) :
    (tvUpdate aMap wm insn acc tv).1 insn.id ∩ insn.reductionInames = ∅ := by
  unfold tvUpdate
  cases himp : implicitInames aMap acc.1 (wm tv) with
  | none => exact absurd (implicitInames_none_iff.mp himp) hw
  | some impl =>
      simp only [Function.update_same]
      rw [Finset.eq_empty_iff_forall_not_mem]
      intro x hx
      rw [Finset.mem_inter, Finset.mem_sdiff] at hx
      exact hx.1.2 hx.2

theorem tvUpdate_inU {aMap : InameState} {wm : WriterMap} {insn : Insn0}
    {acc : InameState × Bool} {tv : String} {U : Finset String}
    (hU : ∀ x, acc.1 x ⊆ U) :
    ∀ x, (tvUpdate aMap wm insn acc tv).1 x ⊆ U := by
  intro x
  unfold tvUpdate
  cases himp : implicitInames aMap acc.1 (wm tv) with
  | none => exact hU x
  | some impl =>
      show Function.update acc.1 insn.id
          ((acc.1 insn.id ∪ impl) \ insn.reductionInames) x ⊆ U
      rcases eq_or_ne x insn.id with rfl | hne
      · rw [Function.update_same]
        exact (Finset.sdiff_subset).trans
          (Finset.union_subset (hU _) (implicitInames_subset himp U hU))
      · rw [Function.update_noteq hne]
        exact hU x

theorem tvUpdate_flag_flip {aMap : InameState} {wm : WriterMap} {insn : Insn0}
    {acc : InameState × Bool} {tv : String}
    (hflag : acc.2 = false) (hres : (tvUpdate aMap wm insn acc tv).2 = true)
    (hd : acc.1 insn.id ∩ insn.reductionInames = ∅) :
    acc.1 insn.id ⊂ (tvUpdate aMap wm insn acc tv).1 insn.id := by
  unfold tvUpdate at hres ⊢
  cases himp : implicitInames aMap acc.1 (wm tv) with
  | none =>
      rw [himp] at hres
      simp [hflag] at hres
  | some impl =>
      rw [himp] at hres
      simp only [hflag, Bool.false_or, decide_eq_true_eq] at hres
      show acc.1 insn.id ⊂ Function.update acc.1 insn.id
        ((acc.1 insn.id ∪ impl) \ insn.reductionInames) insn.id
      rw [Function.update_same]
      have hsub : acc.1 insn.id ⊆ (acc.1 insn.id ∪ impl) \ insn.reductionInames := by
        intro x hx
        rw [Finset.mem_sdiff]
        refine ⟨Finset.mem_union_left _ hx, fun hR => ?_⟩
        have hmem : x ∈ acc.1 insn.id ∩ insn.reductionInames :=
          Finset.mem_inter.mpr ⟨hx, hR⟩
        rw [hd] at hmem
        exact absurd hmem (Finset.not_mem_empty x)
      exact Finset.ssubset_iff_subset_ne.mpr ⟨hsub, fun h => hres h.symm⟩

theorem tvUpdate_flag_false_eq {aMap : InameState} {wm : WriterMap} {insn : Insn0}
    {acc : InameState × Bool} {tv : String}
    (h : (tvUpdate aMap wm insn acc tv).2 = false) {impl : Finset String}
    (himp : implicitInames aMap acc.1 (wm tv) = some impl) :
    (acc.1 insn.id ∪ impl) \ insn.reductionInames = acc.1 insn.id := by
  unfold tvUpdate at h
  rw [himp] at h
  simp only [Bool.or_eq_false_iff, decide_eq_false_iff_not, not_not] at h
  exact h.2

theorem foldl_tv_fst_ne (aMap : InameState) (wm : WriterMap) (insn : Insn0)
    (l : List String) (acc : InameState × Bool) {x : String} (hx : x ≠ insn.id) :
    (l.foldl (tvUpdate aMap wm insn) acc).1 x = acc.1 x := by
  induction l generalizing acc with
  | nil => rfl
  | cons tv rest ih =>
      rw [List.foldl_cons, ih]
      exact tvUpdate_fst_ne aMap wm insn acc tv hx

theorem foldl_tv_flag_mono (aMap : InameState) (wm : WriterMap) (insn : Insn0)
    (l : List String) (acc : InameState × Bool) (h : acc.2 = true) :
    (l.foldl (tvUpdate aMap wm insn) acc).2 = true := by
  induction l generalizing acc with
  | nil => exact h
  | cons tv rest ih =>
      rw [List.foldl_cons]
      exact ih _ (tvUpdate_flag_mono aMap wm insn acc tv h)

theorem foldl_tv_flag_false {aMap : InameState} {wm : WriterMap} {insn : Insn0}
    {l : List String} {acc : InameState × Bool}
    (h : (l.foldl (tvUpdate aMap wm insn) acc).2 = false) :
    acc.2 = false ∧ (l.foldl (tvUpdate aMap wm insn) acc).1 = acc.1 := by
  induction l generalizing acc with
  | nil => exact ⟨h, rfl⟩
  | cons tv rest ih =>
      rw [List.foldl_cons] at h ⊢
      obtain ⟨h1, h2⟩ := ih h
      obtain ⟨h3, h4⟩ := tvUpdate_flag_false h1
      exact ⟨h3, by rw [h2, h4]⟩

theorem foldl_tv_mono {aMap : InameState} {wm : WriterMap} {insn : Insn0}
    {l : List String} {acc : InameState × Bool}
    (hd : acc.1 insn.id ∩ insn.reductionInames = ∅) :
    acc.1 insn.id ⊆ (l.foldl (tvUpdate aMap wm insn) acc).1 insn.id ∧
      (l.foldl (tvUpdate aMap wm insn) acc).1 insn.id ∩ insn.reductionInames = ∅ := by
  induction l generalizing acc with
  | nil => exact ⟨Finset.Subset.refl _, hd⟩
  | cons tv rest ih =>
      rw [List.foldl_cons]
      obtain ⟨h1, h2⟩ := @tvUpdate_mono aMap wm insn acc tv hd
      obtain ⟨h3, h4⟩ := ih h2
      exact ⟨h1.trans h3, h4⟩

theorem foldl_tv_clears {aMap : InameState} {wm : WriterMap} {insn : Insn0}
    {l : List String} {acc : InameState × Bool}
    (hw : ∀ tv ∈ l, wm tv ≠ []) (hne : l ≠ []) :
    (l.foldl (tvUpdate aMap wm insn) acc).1 insn.id ∩ insn.reductionInames = ∅ := by
  cases l with
  | nil => exact absurd rfl hne
  | cons tv rest =>
      rw [List.foldl_cons]
      have hd := @tvUpdate_clears aMap wm insn acc tv
        (hw tv (List.mem_cons_self tv rest))
      exact (foldl_tv_mono hd).2

theorem foldl_tv_direct_sub {aMap : InameState} {wm : WriterMap} {insn : Insn0}
    {l : List String} {acc : InameState × Bool} {D : Finset String}
    (h : D \ insn.reductionInames ⊆ acc.1 insn.id) :
    D \ insn.reductionInames ⊆ (l.foldl (tvUpdate aMap wm insn) acc).1 insn.id := by
  induction l generalizing acc with
  | nil => exact h
  | cons tv rest ih =>
      rw [List.foldl_cons]
      exact ih (tvUpdate_direct_sub h)

theorem foldl_tv_inU {aMap : InameState} {wm : WriterMap} {insn : Insn0}
    {l : List String} {acc : InameState × Bool} {U : Finset String}
    (hU : ∀ x, acc.1 x ⊆ U) :
    ∀ x, (l.foldl (tvUpdate aMap wm insn) acc).1 x ⊆ U := by
  induction l generalizing acc with
  | nil => exact hU
  | cons tv rest ih =>
      rw [List.foldl_cons]
      exact ih (tvUpdate_inU hU)

theorem foldl_tv_flag_flip {aMap : InameState} {wm : WriterMap} {insn : Insn0}
    {l : List String} {acc : InameState × Bool}
    (hflag : acc.2 = false)
    (hres : (l.foldl (tvUpdate aMap wm insn) acc).2 = true)
    (hd : acc.1 insn.id ∩ insn.reductionInames = ∅) :
    acc.1 insn.id ⊂ (l.foldl (tvUpdate aMap wm insn) acc).1 insn.id := by
  induction l generalizing acc with
  | nil => rw [List.foldl_nil] at hres; rw [hflag] at hres; exact absurd hres (by simp)
  | cons tv rest ih =>
      rw [List.foldl_cons] at hres ⊢
      cases hstep : (tvUpdate aMap wm insn acc tv).2 with
      | false =>
          obtain ⟨h1, h2⟩ := tvUpdate_flag_false hstep
          have hd' : (tvUpdate aMap wm insn acc tv).1 insn.id ∩
              insn.reductionInames = ∅ := by rw [h2]; exact hd
          have := @ih (tvUpdate aMap wm insn acc tv) hstep hres hd'
          rw [h2] at this
          exact this
      | true =>
          have hstrict := tvUpdate_flag_flip hflag hstep hd
          have hd' := (@tvUpdate_mono aMap wm insn acc tv hd).2
          exact hstrict.trans_subset (foldl_tv_mono hd').1

theorem foldl_tv_fixed {aMap : InameState} {wm : WriterMap} {insn : Insn0}
    {l : List String} {acc : InameState × Bool}
    (h : (l.foldl (tvUpdate aMap wm insn) acc).2 = false) :
    ∀ tv ∈ l, ∀ impl : Finset String,
      implicitInames aMap acc.1 (wm tv) = some impl →
      (acc.1 insn.id ∪ impl) \ insn.reductionInames = acc.1 insn.id := by
  induction l generalizing acc with
  | nil => intro tv htv; simp at htv
  | cons tv0 rest ih =>
      rw [List.foldl_cons] at h
      obtain ⟨h1, h2⟩ := foldl_tv_flag_false h
      obtain ⟨h3, h4⟩ := tvUpdate_flag_false h1
      intro tv htv impl himp
      rcases List.mem_cons.mp htv with rfl | htv'
      · exact tvUpdate_flag_false_eq h1 himp
      · have := ih h tv htv' impl (by rw [h4]; exact himp)
        rw [h4] at this
        exact this

theorem foldl_insn_fst_not_mem (aMap : InameState) (wm : WriterMap)
    (tempVars : Finset String) (l : List Insn0) (acc : InameState × Bool)
    {x : String} (hx : x ∉ l.map Insn0.id) :
    (l.foldl (insnUpdate aMap wm tempVars) acc).1 x = acc.1 x := by
  induction l generalizing acc with
  | nil => rfl
  | cons a rest ih =>
      rw [List.map_cons, List.mem_cons] at hx
      push_neg at hx
      rw [List.foldl_cons, ih _ hx.2]
      exact foldl_tv_fst_ne aMap wm a _ acc (fun h => hx.1 (h ▸ rfl))

theorem foldl_insn_flag_false {aMap : InameState} {wm : WriterMap}
    {tempVars : Finset String} {l : List Insn0} {acc : InameState × Bool}
    (h : (l.foldl (insnUpdate aMap wm tempVars) acc).2 = false) :
    acc.2 = false ∧ (l.foldl (insnUpdate aMap wm tempVars) acc).1 = acc.1 := by
  induction l generalizing acc with
  | nil => exact ⟨h, rfl⟩
  | cons a rest ih =>
      rw [List.foldl_cons] at h ⊢
      obtain ⟨h1, h2⟩ := ih h
      obtain ⟨h3, h4⟩ := foldl_tv_flag_false h1
      exact ⟨h3, by rw [h2]; exact h4⟩

theorem foldl_insn_inU {aMap : InameState} {wm : WriterMap}
    {tempVars : Finset String} {l : List Insn0} {acc : InameState × Bool}
    {U : Finset String} (hU : ∀ x, acc.1 x ⊆ U) :
    ∀ x, (l.foldl (insnUpdate aMap wm tempVars) acc).1 x ⊆ U := by
  induction l generalizing acc with
  | nil => exact hU
  | cons a rest ih =>
      rw [List.foldl_cons]
      exact ih (foldl_tv_inU hU)

theorem foldl_insn_clears {aMap : InameState} {wm : WriterMap}
    {tempVars : Finset String} {l : List Insn0} {acc : InameState × Bool}
    (hnodup : (l.map Insn0.id).Nodup)
    (hw : ∀ insn ∈ l, ∀ tv ∈ readTemps tempVars insn, wm tv ≠ []) :
    ∀ insn ∈ l, readTemps tempVars insn ≠ [] →
      (l.foldl (insnUpdate aMap wm tempVars) acc).1 insn.id ∩
        insn.reductionInames = ∅ := by
  induction l generalizing acc with
  | nil => intro insn h; simp at h
  | cons a rest ih =>
      intro insn hmem hne
      rw [List.foldl_cons]
      rcases List.mem_cons.mp hmem with rfl | hmem'
      · have hid : insn.id ∉ rest.map Insn0.id := by
          have := (List.nodup_cons.mp hnodup).1
          simpa using this
        rw [foldl_insn_fst_not_mem aMap wm tempVars rest _ hid]
        exact foldl_tv_clears (hw insn (List.mem_cons_self _ _)) hne
      · exact ih (List.nodup_cons.mp hnodup).2
          (fun i hi => hw i (List.mem_cons_of_mem _ hi)) insn hmem' hne

theorem foldl_insn_step_mono {aMap : InameState} {wm : WriterMap}
    {tempVars : Finset String} {a : Insn0} {acc : InameState × Bool}
    (hda : readTemps tempVars a ≠ [] → acc.1 a.id ∩ a.reductionInames = ∅) :
    ∀ x, acc.1 x ⊆ (insnUpdate aMap wm tempVars acc a).1 x := by
  intro x
  rcases eq_or_ne x a.id with rfl | hne
  · cases hrt : readTemps tempVars a with
    | nil =>
        unfold insnUpdate
        rw [hrt]
        exact Finset.Subset.refl _
    | cons tv rest =>
        unfold insnUpdate
        exact (foldl_tv_mono (hda (by rw [hrt]; simp))).1
  · unfold insnUpdate
    rw [foldl_tv_fst_ne aMap wm a _ acc hne]

theorem foldl_insn_mono {aMap : InameState} {wm : WriterMap}
    {tempVars : Finset String} {l : List Insn0} {acc : InameState × Bool}
    (hnodup : (l.map Insn0.id).Nodup)
    (hcl : ∀ insn ∈ l, readTemps tempVars insn ≠ [] →
      acc.1 insn.id ∩ insn.reductionInames = ∅) :
    ∀ x, acc.1 x ⊆ (l.foldl (insnUpdate aMap wm tempVars) acc).1 x := by
  induction l generalizing acc with
  | nil => exact fun x => Finset.Subset.refl _
  | cons a rest ih =>
      intro x
      rw [List.foldl_cons]
      have hstep := @foldl_insn_step_mono aMap wm tempVars a acc
        (hcl a (List.mem_cons_self a rest))
      refine (hstep x).trans (ih (List.nodup_cons.mp hnodup).2 ?_ x)
      intro insn hi hne
      have hid : insn.id ≠ a.id := by
        intro h
        exact (List.nodup_cons.mp hnodup).1 (h ▸ List.mem_map_of_mem Insn0.id hi)
      unfold insnUpdate
      rw [foldl_tv_fst_ne aMap wm a _ acc hid]
      exact hcl insn (List.mem_cons_of_mem _ hi) hne

theorem foldl_insn_preserve_empty {aMap : InameState} {wm : WriterMap}
    {tempVars : Finset String} {l : List Insn0} {acc : InameState × Bool}
    (hnodup : (l.map Insn0.id).Nodup) :
    ∀ insn ∈ l, readTemps tempVars insn = [] →
      (l.foldl (insnUpdate aMap wm tempVars) acc).1 insn.id = acc.1 insn.id := by
  induction l generalizing acc with
  | nil => intro insn h; simp at h
  | cons a rest ih =>
      intro insn hmem hempty
      rw [List.foldl_cons]
      rcases List.mem_cons.mp hmem with rfl | hmem'
      · have hid : insn.id ∉ rest.map Insn0.id := by
          simpa using (List.nodup_cons.mp hnodup).1
        rw [foldl_insn_fst_not_mem aMap wm tempVars rest _ hid]
        unfold insnUpdate
        rw [hempty]
        rfl
      · have hid : insn.id ≠ a.id := by
          intro h
          exact (List.nodup_cons.mp hnodup).1 (h ▸ List.mem_map_of_mem Insn0.id hmem')
        rw [ih (List.nodup_cons.mp hnodup).2 insn hmem' hempty]
        unfold insnUpdate
        rw [foldl_tv_fst_ne aMap wm a _ acc hid]

theorem foldl_insn_direct_sub {aMap : InameState} {wm : WriterMap}
    {tempVars : Finset String} {l : List Insn0} {acc : InameState × Bool}
    {D : Insn0 → Finset String}
    (hnodup : (l.map Insn0.id).Nodup)
    (h : ∀ insn ∈ l, D insn \ insn.reductionInames ⊆ acc.1 insn.id) :
    ∀ insn ∈ l, D insn \ insn.reductionInames ⊆
      (l.foldl (insnUpdate aMap wm tempVars) acc).1 insn.id := by
  induction l generalizing acc with
  | nil => intro insn hi; simp at hi
  | cons a rest ih =>
      intro insn hmem
      rw [List.foldl_cons]
      rcases List.mem_cons.mp hmem with rfl | hmem'
      · have hid : insn.id ∉ rest.map Insn0.id := by
          simpa using (List.nodup_cons.mp hnodup).1
        rw [foldl_insn_fst_not_mem aMap wm tempVars rest _ hid]
        exact foldl_tv_direct_sub (h insn (List.mem_cons_self _ _))
      · refine ih (List.nodup_cons.mp hnodup).2 ?_ insn hmem'
        intro i hi
        have hid : i.id ≠ a.id := by
          intro hth
          exact (List.nodup_cons.mp hnodup).1 (hth ▸ List.mem_map_of_mem Insn0.id hi)
        unfold insnUpdate
        rw [foldl_tv_fst_ne aMap wm a _ acc hid]
        exact h i (List.mem_cons_of_mem _ hi)

theorem foldl_insn_fixed {aMap : InameState} {wm : WriterMap}
    {tempVars : Finset String} {l : List Insn0} {acc : InameState × Bool}
    (h : (l.foldl (insnUpdate aMap wm tempVars) acc).2 = false) :
    ∀ insn ∈ l, ∀ tv ∈ readTemps tempVars insn, ∀ impl : Finset String,
      implicitInames aMap acc.1 (wm tv) = some impl →
      (acc.1 insn.id ∪ impl) \ insn.reductionInames = acc.1 insn.id := by
  induction l generalizing acc with
  | nil => intro insn hi; simp at hi
  | cons a rest ih =>
      rw [List.foldl_cons] at h
      obtain ⟨h1, h2⟩ := foldl_insn_flag_false h
      obtain ⟨h3, h4⟩ := foldl_tv_flag_false h1
      intro insn hmem tv htv impl himp
      rcases List.mem_cons.mp hmem with rfl | hmem'
      · exact foldl_tv_fixed h1 tv htv impl himp
      · have := ih h insn hmem' tv htv impl (by
          show implicitInames aMap (insnUpdate aMap wm tempVars acc a).1 (wm tv) = _
          unfold insnUpdate
          rw [h4]
          exact himp)
        unfold insnUpdate at this
        rw [h4] at this
        exact this

theorem foldl_insn_strict {aMap : InameState} {wm : WriterMap}
    {tempVars : Finset String} (full : List Insn0) :
    ∀ (l : List Insn0) (acc : InameState × Bool) (s : InameState),
    (∀ insn ∈ l, insn ∈ full) →
    ((l.map Insn0.id).Nodup) →
    (∀ insn ∈ l, acc.1 insn.id = s insn.id) →
    (∀ x, s x ⊆ acc.1 x) →
    (∀ insn ∈ l, readTemps tempVars insn ≠ [] →
      s insn.id ∩ insn.reductionInames = ∅) →
    (acc.2 = true →
      (full.map (fun i => (s i.id).card)).sum <
        (full.map (fun i => (acc.1 i.id).card)).sum) →
    (l.foldl (insnUpdate aMap wm tempVars) acc).2 = true →
    (full.map (fun i => (s i.id).card)).sum <
      (full.map (fun i =>
        ((l.foldl (insnUpdate aMap wm tempVars) acc).1 i.id).card)).sum := by
  intro l
  induction l with
  | nil =>
      intro acc s _ _ _ _ _ hflagimp hres
      rw [List.foldl_nil] at hres ⊢
      exact hflagimp hres
  | cons a rest ih =>
      intro acc s hfull hnodup hagree hmono hcl hflagimp hres
      rw [List.foldl_cons] at hres ⊢
      have hamem : a ∈ a :: rest := List.mem_cons_self a rest
      have hdisj : readTemps tempVars a ≠ [] → acc.1 a.id ∩ a.reductionInames = ∅ := by
        intro hne
        rw [hagree a hamem]
        exact hcl a hamem hne
      have hstep : ∀ x, acc.1 x ⊆ (insnUpdate aMap wm tempVars acc a).1 x :=
        foldl_insn_step_mono hdisj
      have hmono' : ∀ x, s x ⊆ (insnUpdate aMap wm tempVars acc a).1 x :=
        fun x => (hmono x).trans (hstep x)
      have hagree' : ∀ insn ∈ rest,
          (insnUpdate aMap wm tempVars acc a).1 insn.id = s insn.id := by
        intro insn hi
        have hid : insn.id ≠ a.id := by
          intro h
          exact (List.nodup_cons.mp hnodup).1 (h ▸ List.mem_map_of_mem Insn0.id hi)
        unfold insnUpdate
        rw [foldl_tv_fst_ne aMap wm a _ acc hid]
        exact hagree insn (List.mem_cons_of_mem _ hi)
      have hflagimp' : (insnUpdate aMap wm tempVars acc a).2 = true →
          (full.map (fun i => (s i.id).card)).sum <
            (full.map (fun i =>
              ((insnUpdate aMap wm tempVars acc a).1 i.id).card)).sum := by
        intro hatrue
        cases haccflag : acc.2 with
        | true =>
            have h1 := hflagimp haccflag
            have h2 : (full.map (fun i => (acc.1 i.id).card)).sum ≤
                (full.map (fun i =>
                  ((insnUpdate aMap wm tempVars acc a).1 i.id).card)).sum :=
              List.sum_le_sum (fun i _ => Finset.card_le_card (hstep i.id))
            omega
        | false =>
            have hne : readTemps tempVars a ≠ [] := by
              intro hempty
              unfold insnUpdate at hatrue
              rw [hempty, List.foldl_nil, haccflag] at hatrue
              exact absurd hatrue (by simp)
            have hstrict : acc.1 a.id ⊂ (insnUpdate aMap wm tempVars acc a).1 a.id := by
              unfold insnUpdate at hatrue ⊢
              exact foldl_tv_flag_flip haccflag hatrue (hdisj hne)
            refine List.sum_lt_sum _ _
              (fun i _ => Finset.card_le_card (hmono' i.id)) ⟨a, hfull a hamem, ?_⟩
            rw [← hagree a hamem]
            exact Finset.card_lt_card hstrict
      exact ih (insnUpdate aMap wm tempVars acc a) s
        (fun insn hi => hfull insn (List.mem_cons_of_mem _ hi))
        (List.nodup_cons.mp hnodup).2 hagree' hmono'
        (fun insn hi => hcl insn (List.mem_cons_of_mem _ hi)) hflagimp' hres

theorem foldl_update_subset_of {α : Type} (l : List α) (key : α → String)
    (val : α → Finset String) (m : String → Finset String) (V : Finset String)
    (hl : ∀ a ∈ l, val a ⊆ V) (hm : ∀ x, m x ⊆ V) :
    ∀ x, (l.foldl (fun m a => Function.update m (key a) (val a)) m) x ⊆ V := by
  induction l generalizing m with
  | nil => exact hm
  | cons a rest ih =>
      rw [List.foldl_cons]
      refine ih _ (fun b hb => hl b (List.mem_cons_of_mem _ hb)) ?_
      intro x
      rcases eq_or_ne x (key a) with rfl | hne
      · rw [Function.update_same]
        exact hl a (List.mem_cons_self a rest)
      · rw [Function.update_noteq hne]
        exact hm x

theorem subset_foldl_union (f : Insn0 → Finset String) :
    ∀ (l : List Insn0) (init : Finset String),
      init ⊆ l.foldl (fun u b => u ∪ f b) init ∧
      ∀ a ∈ l, f a ⊆ l.foldl (fun u b => u ∪ f b) init := by
  intro l
  induction l with
  | nil => exact fun init => ⟨Finset.Subset.refl _, by simp⟩
  | cons b rest ih =>
      intro init
      rw [List.foldl_cons]
      refine ⟨(Finset.subset_union_left).trans (ih (init ∪ f b)).1, ?_⟩
      intro a ha
      rcases List.mem_cons.mp ha with rfl | ha'
      · exact (Finset.subset_union_right).trans (ih (init ∪ f a)).1
      · exact (ih (init ∪ f b)).2 a ha'

theorem directInames_subset_universe {insns : List Insn0}
    {allInames : Finset String} {insn : Insn0} (h : insn ∈ insns) :
    directInames allInames insn ⊆ inameUniverse allInames insns :=
  (subset_foldl_union (directInames allInames) insns ∅).2 insn h

theorem initState_inU (insns : List Insn0) (allInames : Finset String) :
    ∀ x, initState allInames insns x ⊆ inameUniverse allInames insns := by
  unfold initState
  exact foldl_update_subset_of insns Insn0.id (directInames allInames) _ _
    (fun a ha => directInames_subset_universe ha) (fun x => Finset.empty_subset _)

theorem sum_card_le_bound {insns : List Insn0} {s : InameState} {U : Finset String}
    (hU : ∀ x, s x ⊆ U) :
    (insns.map (fun i => (s i.id).card)).sum ≤ insns.length * U.card := by
  have h := List.sum_le_card_nsmul (insns.map (fun i => (s i.id).card)) U.card ?_
  · rw [List.length_map, smul_eq_mul] at h
    exact h
  · intro x hx
    rw [List.mem_map] at hx
    obtain ⟨i, _, rfl⟩ := hx
    exact Finset.card_le_card (hU i.id)

theorem passLoop_fixpoint {aMap : InameState} {wm : WriterMap}
    {tempVars : Finset String} {insns : List Insn0} {U : Finset String}
    (hnodup : (insns.map Insn0.id).Nodup)
    (hw : ∀ insn ∈ insns, ∀ tv ∈ readTemps tempVars insn, wm tv ≠ []) :
    ∀ (fuel : Nat) (s : InameState),
    (∀ insn ∈ insns, readTemps tempVars insn ≠ [] →
      s insn.id ∩ insn.reductionInames = ∅) →
    (∀ x, s x ⊆ U) →
    insns.length * U.card + 1 ≤ fuel + (insns.map (fun i => (s i.id).card)).sum →
    (onePass aMap wm tempVars insns
      (passLoop aMap wm tempVars insns fuel s)).2 = false := by
  intro fuel
  induction fuel with
  | zero =>
      intro s hcl hU hb
      have hle := @sum_card_le_bound insns s U hU
      omega
  | succ f ih =>
      intro s hcl hU hb
      rcases hp : onePass aMap wm tempVars insns s with ⟨s', flag⟩
      have hloop : passLoop aMap wm tempVars insns (f + 1) s =
          match onePass aMap wm tempVars insns s with
          | (s', false) => s'
          | (s', true) => passLoop aMap wm tempVars insns f s' := rfl
      rw [hloop, hp]
      cases flag with
      | false =>
          have hflag : (onePass aMap wm tempVars insns s).2 = false := by
            rw [hp]
          have hs' : s' = s := by
            have h1 := (@foldl_insn_flag_false aMap wm tempVars insns
              (s, false) hflag).2
            have h2 : s' = (onePass aMap wm tempVars insns s).1 := by rw [hp]
            rw [h2]
            exact h1
          show (onePass aMap wm tempVars insns s').2 = false
          rw [hs']
          exact hflag
      | true =>
          show (onePass aMap wm tempVars insns
            (passLoop aMap wm tempVars insns f s')).2 = false
          have hs' : s' = (onePass aMap wm tempVars insns s).1 := by rw [hp]
          have hflag : (onePass aMap wm tempVars insns s).2 = true := by rw [hp]
          refine ih s' ?_ ?_ ?_
          · intro insn hi hne
            rw [hs']
            exact foldl_insn_clears hnodup hw insn hi hne
          · intro x
            rw [hs']
            exact foldl_insn_inU hU x
          · have hstrict := @foldl_insn_strict aMap wm
              tempVars insns insns (s, false) s
              (fun insn hi => hi) hnodup (fun insn _ => rfl)
              (fun x => Finset.Subset.refl _) hcl (by simp) hflag
            have hstrict2 : (List.map (fun i => (s i.id).card) insns).sum <
                (List.map (fun i => (s' i.id).card) insns).sum := by
              rw [hs']
              exact hstrict
            omega

theorem initState_eq_direct {insns : List Insn0} {allInames : Finset String}
    {insn : Insn0} (h : insn ∈ insns) (hnodup : (insns.map Insn0.id).Nodup) :
    initState allInames insns insn.id = directInames allInames insn :=
  foldl_update_eq_val insns Insn0.id (directInames allInames) _ insn h hnodup

theorem implicitInames_isSome {aMap s : InameState} {ws : List String}
    (h : ws ≠ []) : ∃ impl, implicitInames aMap s ws = some impl := by
  cases ws with
  | nil => exact absurd rfl h
  | cons w rest => exact ⟨_, rfl⟩

theorem mem_foldr_union {g : String → Finset String} {l : List String} {x : String} :
    x ∈ l.foldr (fun tv acc => g tv ∪ acc) ∅ ↔ ∃ tv ∈ l, x ∈ g tv := by
  induction l with
  | nil => simp
  | cons tv rest ih => simp [ih]

theorem find_all_fixpoint {insns : List Insn0} {allInames : Finset String}
    {wm : WriterMap} {tempVars : Finset String}
    (hnodup : (insns.map Insn0.id).Nodup)
    (hw : ∀ insn ∈ insns, ∀ tv ∈ readTemps tempVars insn, wm tv ≠ []) :
    (onePass (assigneeMap allInames insns) wm tempVars insns
      (find_all_insn_inames insns allInames wm tempVars)).2 = false := by
  unfold find_all_insn_inames sufficientFuel
  rcases hp : onePass (assigneeMap allInames insns) wm tempVars insns
      (initState allInames insns) with ⟨s1, flag⟩
  have hloop : passLoop (assigneeMap allInames insns) wm tempVars insns
      (insns.length * (inameUniverse allInames insns).card + 2)
      (initState allInames insns) =
      match onePass (assigneeMap allInames insns) wm tempVars insns
        (initState allInames insns) with
      | (s', false) => s'
      | (s', true) =>
          passLoop (assigneeMap allInames insns) wm tempVars insns
            (insns.length * (inameUniverse allInames insns).card + 1) s' := rfl
  rw [hloop, hp]
  cases flag with
  | false =>
      have hflag : (onePass (assigneeMap allInames insns) wm tempVars insns
          (initState allInames insns)).2 = false := by rw [hp]
      have hs1 : s1 = initState allInames insns := by
        have h1 := (@foldl_insn_flag_false (assigneeMap allInames insns) wm
          tempVars insns (initState allInames insns, false) hflag).2
        have h2 : s1 = (onePass (assigneeMap allInames insns) wm tempVars insns
            (initState allInames insns)).1 := by rw [hp]
        rw [h2]
        exact h1
      show (onePass (assigneeMap allInames insns) wm tempVars insns s1).2 = false
      rw [hs1]
      exact hflag
  | true =>
      have hs1 : s1 = (onePass (assigneeMap allInames insns) wm tempVars insns
          (initState allInames insns)).1 := by rw [hp]
      refine passLoop_fixpoint (U := inameUniverse allInames insns) hnodup hw _ s1 ?_ ?_ ?_
      · intro insn hi hne
        rw [hs1]
        exact foldl_insn_clears hnodup hw insn hi hne
      · intro x
        rw [hs1]
        exact foldl_insn_inU (initState_inU insns allInames) x
      · omega

theorem iterStep_exists {aMap : InameState} {wm : WriterMap}
    {tempVars : Finset String} {insns : List Insn0} {U : Finset String}
    (hnodup : (insns.map Insn0.id).Nodup)
    (hw : ∀ insn ∈ insns, ∀ tv ∈ readTemps tempVars insn, wm tv ≠ []) :
    ∀ (fuel : Nat) (s : InameState),
    (∀ insn ∈ insns, readTemps tempVars insn ≠ [] →
      s insn.id ∩ insn.reductionInames = ∅) →
    (∀ x, s x ⊆ U) →
    insns.length * U.card + 1 ≤ fuel + (insns.map (fun i => (s i.id).card)).sum →
    ∃ j, j ≤ fuel ∧ (onePass aMap wm tempVars insns
      ((fun t => (onePass aMap wm tempVars insns t).1)^[j] s)).2 = false := by
  intro fuel
  induction fuel with
  | zero =>
      intro s hcl hU hb
      have hle := @sum_card_le_bound insns s U hU
      omega
  | succ f ih =>
      intro s hcl hU hb
      rcases hp : onePass aMap wm tempVars insns s with ⟨s', flag⟩
      cases flag with
      | false =>
          refine ⟨0, Nat.zero_le _, ?_⟩
          rw [Function.iterate_zero_apply, hp]
      | true =>
          have hs' : s' = (onePass aMap wm tempVars insns s).1 := by rw [hp]
          have hflag : (onePass aMap wm tempVars insns s).2 = true := by rw [hp]
          obtain ⟨j, hj, hstable⟩ := ih s'
            (fun insn hi hne => by
              rw [hs']
              exact foldl_insn_clears hnodup hw insn hi hne)
            (fun x => by rw [hs']; exact foldl_insn_inU hU x)
            (by
              have hstrict := @foldl_insn_strict aMap wm
                tempVars insns insns (s, false) s
                (fun insn hi => hi) hnodup (fun insn _ => rfl)
                (fun x => Finset.Subset.refl _) hcl (by simp) hflag
              have hstrict2 : (List.map (fun i => (s i.id).card) insns).sum <
                  (List.map (fun i => (s' i.id).card) insns).sum := by
                rw [hs']
                exact hstrict
              omega)
          refine ⟨j + 1, by omega, ?_⟩
          simp only [Function.iterate_succ_apply, hp]
          exact hstable

theorem passLoop_preserve_empty {aMap : InameState} {wm : WriterMap}
    {tempVars : Finset String} {insns : List Insn0}
    (hnodup : (insns.map Insn0.id).Nodup) :
    ∀ (fuel : Nat) (s : InameState), ∀ insn ∈ insns,
    readTemps tempVars insn = [] →
    passLoop aMap wm tempVars insns fuel s insn.id = s insn.id := by
  intro fuel
  induction fuel with
  | zero => intro s insn _ _; rfl
  | succ f ih =>
      intro s insn hi hempty
      rcases hp : onePass aMap wm tempVars insns s with ⟨s', flag⟩
      have hs' : s' = (onePass aMap wm tempVars insns s).1 := by rw [hp]
      have hpres : s' insn.id = s insn.id := by
        rw [hs']
        exact foldl_insn_preserve_empty hnodup insn hi hempty
      have hloop : passLoop aMap wm tempVars insns (f + 1) s =
          match onePass aMap wm tempVars insns s with
          | (s', false) => s'
          | (s', true) => passLoop aMap wm tempVars insns f s' := rfl
      rw [hloop, hp]
      cases flag with
      | false => exact hpres
      | true =>
          show passLoop aMap wm tempVars insns f s' insn.id = s insn.id
          rw [ih s' insn hi hempty]
          exact hpres

theorem passLoop_direct_sub {aMap : InameState} {wm : WriterMap}
    {tempVars : Finset String} {insns : List Insn0} {allInames : Finset String}
    (hnodup : (insns.map Insn0.id).Nodup) :
    ∀ (fuel : Nat) (s : InameState),
    (∀ insn ∈ insns, directInames allInames insn \ insn.reductionInames ⊆ s insn.id) →
    ∀ insn ∈ insns, directInames allInames insn \ insn.reductionInames ⊆
      passLoop aMap wm tempVars insns fuel s insn.id := by
  intro fuel
  induction fuel with
  | zero => intro s h insn hi; exact h insn hi
  | succ f ih =>
      intro s h insn hi
      rcases hp : onePass aMap wm tempVars insns s with ⟨s', flag⟩
      have hs' : s' = (onePass aMap wm tempVars insns s).1 := by rw [hp]
      have hsub : ∀ i ∈ insns, directInames allInames i \ i.reductionInames ⊆ s' i.id := by
        intro i hii
        rw [hs']
        exact foldl_insn_direct_sub hnodup h i hii
      have hloop : passLoop aMap wm tempVars insns (f + 1) s =
          match onePass aMap wm tempVars insns s with
          | (s', false) => s'
          | (s', true) => passLoop aMap wm tempVars insns f s' := rfl
      rw [hloop, hp]
      cases flag with
      | false => exact hsub insn hi
      | true => exact ih s' hsub insn hi

/-- C1 counterexample: the returned mapping is *not* a fixed point of the
claim's update rule for instructions that read no temporary variable.  For
the one-instruction kernel `exB` (forced iname `r`, also bound by a
reduction in its own expression, no temporaries), the inference returns
`{r}` for `b`, but the claim's update — (current ∪ implicit-from-reads)
minus reduction-bound inames — maps `{r}` to `∅`: the code never applies
the reduction subtraction to instructions that read no temporary. -/
theorem find_all_insn_inames_not_claim_rule_fixed_point :
    find_all_insn_inames [exB] {"r"} (fun _ => []) ∅ exB.id = {"r"} ∧
    claimUpdateRule (assigneeMap {"r"} [exB]) (fun _ => []) ∅
      (find_all_insn_inames [exB] {"r"} (fun _ => []) ∅) exB = ∅ ∧
    (∅ : Finset String) ≠ {"r"} := by
  refine ⟨by decide, by decide, by decide⟩

/-- C1 (amended): under the kernel invariants (unique instruction ids;
every read temporary has at least one writer, as Python's
`writer_map[tv_name]` lookup requires), the mapping returned by
`find_all_insn_inames` is a state on which a full pass changes nothing;
consequently, for every instruction and every temporary it reads, the
per-temporary update (current ∪ implicit-from-that-temporary) minus the
instruction's reduction-bound inames leaves the entry unchanged, and for
instructions reading at least one temporary the claim's whole update rule
(union over all read temporaries, then minus reduction inames) is likewise
stationary; instructions reading *no* temporary are never updated and keep
exactly their direct inames (which may retain reduction-bound inames,
contrary to the claim's rule). -/
theorem find_all_insn_inames_is_fixed_point
    (insns : List Insn0) (allInames : Finset String) (wm : WriterMap)
    (tempVars : Finset String)
    (hnodup : (insns.map Insn0.id).Nodup)
    (hw : ∀ insn ∈ insns, ∀ tv ∈ readTemps tempVars insn, wm tv ≠ []) :
    (onePass (assigneeMap allInames insns) wm tempVars insns
      (find_all_insn_inames insns allInames wm tempVars)).2 = false ∧
    (∀ insn ∈ insns, ∀ tv ∈ readTemps tempVars insn, ∀ impl : Finset String,
      implicitInames (assigneeMap allInames insns)
        (find_all_insn_inames insns allInames wm tempVars) (wm tv) = some impl →
      (find_all_insn_inames insns allInames wm tempVars insn.id ∪ impl) \
        insn.reductionInames =
        find_all_insn_inames insns allInames wm tempVars insn.id) ∧
    (∀ insn ∈ insns, readTemps tempVars insn ≠ [] →
      claimUpdateRule (assigneeMap allInames insns) wm tempVars
        (find_all_insn_inames insns allInames wm tempVars) insn =
        find_all_insn_inames insns allInames wm tempVars insn.id) ∧
    (∀ insn ∈ insns, readTemps tempVars insn = [] →
      find_all_insn_inames insns allInames wm tempVars insn.id =
        directInames allInames insn) := by
  have h0 := @find_all_fixpoint insns allInames wm tempVars hnodup hw
  have h1 : ∀ insn ∈ insns, ∀ tv ∈ readTemps tempVars insn, ∀ impl : Finset String,
      implicitInames (assigneeMap allInames insns)
        (find_all_insn_inames insns allInames wm tempVars) (wm tv) = some impl →
      (find_all_insn_inames insns allInames wm tempVars insn.id ∪ impl) \
        insn.reductionInames =
        find_all_insn_inames insns allInames wm tempVars insn.id :=
    fun insn hi tv htv impl himp => foldl_insn_fixed h0 insn hi tv htv impl himp
  refine ⟨h0, h1, ?_, ?_⟩
  · intro insn hi hne
    obtain ⟨tv0, htv0⟩ := List.exists_mem_of_ne_nil _ hne
    obtain ⟨impl0, himpl0⟩ := @implicitInames_isSome
      (assigneeMap allInames insns)
      (find_all_insn_inames insns allInames wm tempVars)
      (wm tv0) (hw insn hi tv0 htv0)
    have heq0 := h1 insn hi tv0 htv0 impl0 himpl0
    have hdisj : find_all_insn_inames insns allInames wm tempVars insn.id ∩
        insn.reductionInames = ∅ := by
      rw [Finset.eq_empty_iff_forall_not_mem]
      intro x hx
      rw [Finset.mem_inter] at hx
      have hmem : x ∈ (find_all_insn_inames insns allInames wm tempVars insn.id ∪
          impl0) \ insn.reductionInames := by
        rw [heq0]
        exact hx.1
      rw [Finset.mem_sdiff] at hmem
      exact hmem.2 hx.2
    unfold claimUpdateRule
    apply Finset.ext
    intro x
    constructor
    · intro hx
      rw [Finset.mem_sdiff, Finset.mem_union] at hx
      rcases hx.1 with hxs | hxu
      · exact hxs
      · rw [mem_foldr_union] at hxu
        obtain ⟨tv, htv, hxg⟩ := hxu
        obtain ⟨impl, himpl⟩ := @implicitInames_isSome
          (assigneeMap allInames insns)
          (find_all_insn_inames insns allInames wm tempVars)
          (wm tv) (hw insn hi tv htv)
        rw [himpl] at hxg
        have heq := h1 insn hi tv htv impl himpl
        have hmem : x ∈ (find_all_insn_inames insns allInames wm tempVars insn.id ∪
            impl) \ insn.reductionInames := by
          rw [Finset.mem_sdiff]
          exact ⟨Finset.mem_union_right _ (by simpa using hxg), hx.2⟩
        rw [heq] at hmem
        exact hmem
    · intro hx
      rw [Finset.mem_sdiff]
      refine ⟨Finset.mem_union_left _ hx, fun hR => ?_⟩
      have hmem : x ∈ find_all_insn_inames insns allInames wm tempVars insn.id ∩
          insn.reductionInames := Finset.mem_inter.mpr ⟨hx, hR⟩
      rw [hdisj] at hmem
      exact absurd hmem (Finset.not_mem_empty x)
  · intro insn hi hempty
    unfold find_all_insn_inames
    rw [passLoop_preserve_empty hnodup _ _ insn hi hempty,
      initState_eq_direct hi hnodup]

/-- Witness for `find_all_insn_inames_is_fixed_point`: the hypotheses
discharged on the concrete kernel `[exW, exA]`. -/
theorem find_all_insn_inames_is_fixed_point_witness :
    (onePass (assigneeMap {"r"} [exW, exA]) exWm {"t"} [exW, exA]
      (find_all_insn_inames [exW, exA] {"r"} exWm {"t"})).2 = false ∧
    (∀ insn ∈ [exW, exA], ∀ tv ∈ readTemps {"t"} insn, ∀ impl : Finset String,
      implicitInames (assigneeMap {"r"} [exW, exA])
        (find_all_insn_inames [exW, exA] {"r"} exWm {"t"}) (exWm tv) = some impl →
      (find_all_insn_inames [exW, exA] {"r"} exWm {"t"} insn.id ∪ impl) \
        insn.reductionInames =
        find_all_insn_inames [exW, exA] {"r"} exWm {"t"} insn.id) ∧
    (∀ insn ∈ [exW, exA], readTemps {"t"} insn ≠ [] →
      claimUpdateRule (assigneeMap {"r"} [exW, exA]) exWm {"t"}
        (find_all_insn_inames [exW, exA] {"r"} exWm {"t"}) insn =
        find_all_insn_inames [exW, exA] {"r"} exWm {"t"} insn.id) ∧
    (∀ insn ∈ [exW, exA], readTemps {"t"} insn = [] →
      find_all_insn_inames [exW, exA] {"r"} exWm {"t"} insn.id =
        directInames {"r"} insn) :=
  find_all_insn_inames_is_fixed_point [exW, exA] {"r"} exWm {"t"}
    (by decide) (by decide)

/-- C2 counterexample: the inferred iname set is *not* always a superset
of the instruction's direct inames, and the sets do *not* only grow.  In
the kernel `[exW, exA]` (writer `w` of temporary `t` under no inames;
reader `a` with forced iname `r` that its own reduction binds), the first
fixed-point pass removes `r` from `a`'s set — it shrinks from `{r}` to
`∅` — and the final set `∅` is not a superset of `a`'s direct inames
`{r}`. -/
theorem find_all_insn_inames_not_monotone :
    ¬ (directInames {"r"} exA ⊆
        find_all_insn_inames [exW, exA] {"r"} exWm {"t"} exA.id) ∧
    passIter [exW, exA] {"r"} exWm {"t"} 1 exA.id ⊂
      passIter [exW, exA] {"r"} exWm {"t"} 0 exA.id := by
  refine ⟨by decide, by decide⟩

/-- C2 (amended): under the kernel invariants (unique instruction ids;
every read temporary has a writer), the fixed-point iteration terminates —
within `sufficientFuel` passes some full pass changes no instruction's set
— on every kernel, including circular read/write chains among
temporaries; every instruction's final iname set contains its direct
inames *minus its reduction-bound inames* (the first update removes
reduction inames, so the unqualified superset claim fails); and from the
second pass onwards each instruction's set only grows (the first pass may
shrink a set by removing reduction-bound inames). -/
theorem find_all_insn_inames_terminates
    (insns : List Insn0) (allInames : Finset String) (wm : WriterMap)
    (tempVars : Finset String)
    (hnodup : (insns.map Insn0.id).Nodup)
    (hw : ∀ insn ∈ insns, ∀ tv ∈ readTemps tempVars insn, wm tv ≠ []) :
    (∃ k, k ≤ sufficientFuel allInames insns ∧
      (onePass (assigneeMap allInames insns) wm tempVars insns
        (passIter insns allInames wm tempVars k)).2 = false) ∧
    (∀ insn ∈ insns, directInames allInames insn \ insn.reductionInames ⊆
      find_all_insn_inames insns allInames wm tempVars insn.id) ∧
    (∀ k, 1 ≤ k → ∀ x, passIter insns allInames wm tempVars k x ⊆
      passIter insns allInames wm tempVars (k + 1) x) := by
  refine ⟨?_, ?_, ?_⟩
  · rcases hp : onePass (assigneeMap allInames insns) wm tempVars insns
        (initState allInames insns) with ⟨s1, flag⟩
    cases flag with
    | false =>
        refine ⟨0, Nat.zero_le _, ?_⟩
        show (onePass (assigneeMap allInames insns) wm tempVars insns
          (initState allInames insns)).2 = false
        rw [hp]
    | true =>
        have hs1 : s1 = (onePass (assigneeMap allInames insns) wm tempVars insns
            (initState allInames insns)).1 := by rw [hp]
        obtain ⟨j, hj, hstable⟩ := iterStep_exists
          (U := inameUniverse allInames insns) hnodup hw
          (insns.length * (inameUniverse allInames insns).card + 1) s1
          (fun insn hi hne => by
            rw [hs1]
            exact foldl_insn_clears hnodup hw insn hi hne)
          (fun x => by
            rw [hs1]
            exact foldl_insn_inU (initState_inU insns allInames) x)
          (by omega)
        refine ⟨j + 1, by unfold sufficientFuel; omega, ?_⟩
        show (onePass (assigneeMap allInames insns) wm tempVars insns
          ((fun s => (onePass (assigneeMap allInames insns) wm tempVars insns s).1)^[j + 1]
            (initState allInames insns))).2 = false
        rw [Function.iterate_succ_apply]
        simp only [hp]
        exact hstable
  · intro insn hi
    unfold find_all_insn_inames
    refine passLoop_direct_sub hnodup _ _ ?_ insn hi
    intro i hii
    rw [initState_eq_direct hii hnodup]
    exact Finset.sdiff_subset
  · intro k hk x
    cases k with
    | zero => omega
    | succ j =>
        have hiter : passIter insns allInames wm tempVars (j + 1) =
            (onePass (assigneeMap allInames insns) wm tempVars insns
              (passIter insns allInames wm tempVars j)).1 := by
          unfold passIter
          rw [Function.iterate_succ_apply']
        have hcl : ∀ insn ∈ insns, readTemps tempVars insn ≠ [] →
            passIter insns allInames wm tempVars (j + 1) insn.id ∩
              insn.reductionInames = ∅ := by
          intro insn hi hne
          rw [hiter]
          exact foldl_insn_clears hnodup hw insn hi hne
        have hstep : passIter insns allInames wm tempVars (j + 1 + 1) =
            (onePass (assigneeMap allInames insns) wm tempVars insns
              (passIter insns allInames wm tempVars (j + 1))).1 := by
          unfold passIter
          rw [Function.iterate_succ_apply']
        rw [hstep]
        exact @foldl_insn_mono (assigneeMap allInames insns) wm tempVars
          insns (passIter insns allInames wm tempVars (j + 1), false)
          hnodup hcl x

/-- Witness for `find_all_insn_inames_terminates`: the hypotheses
discharged on the concrete kernel `[exW, exA]`. -/
theorem find_all_insn_inames_terminates_witness :
    (∃ k, k ≤ sufficientFuel {"r"} [exW, exA] ∧
      (onePass (assigneeMap {"r"} [exW, exA]) exWm {"t"} [exW, exA]
        (passIter [exW, exA] {"r"} exWm {"t"} k)).2 = false) ∧
    (∀ insn ∈ [exW, exA], directInames {"r"} insn \ insn.reductionInames ⊆
      find_all_insn_inames [exW, exA] {"r"} exWm {"t"} insn.id) ∧
    (∀ k, 1 ≤ k → ∀ x, passIter [exW, exA] {"r"} exWm {"t"} k x ⊆
      passIter [exW, exA] {"r"} exWm {"t"} (k + 1) x) :=
  find_all_insn_inames_terminates [exW, exA] {"r"} exWm {"t"}
    (by decide) (by decide)

theorem digitsOfPos_zero (f : Nat) : digitsOfPos f 0 = [] := by
  cases f <;> simp [digitsOfPos]

theorem digitChar_props {d : Nat} (hd : d < 10) :
    (Char.ofNat (48 + d)).isDigit = true ∧ (Char.ofNat (48 + d)) ≠ '_' ∧
    (Char.ofNat (48 + d)).isWhitespace = false ∧
    (Char.ofNat (48 + d)).toNat = 48 + d := by
  interval_cases d <;> exact ⟨by decide, by decide, by decide, by decide⟩

theorem digitsOfPos_fuel : ∀ (n f1 f2 : Nat), n ≤ f1 → n ≤ f2 →
    digitsOfPos f1 n = digitsOfPos f2 n := by
  intro n
  induction n using Nat.strong_induction_on with
  | _ n ih =>
      intro f1 f2 h1 h2
      rcases Nat.eq_zero_or_pos n with rfl | hn
      · rw [digitsOfPos_zero, digitsOfPos_zero]
      · obtain ⟨a, rfl⟩ : ∃ a, f1 = a + 1 := ⟨f1 - 1, by omega⟩
        obtain ⟨b, rfl⟩ : ∃ b, f2 = b + 1 := ⟨f2 - 1, by omega⟩
        show digitsOfPos (a + 1) n = digitsOfPos (b + 1) n
        unfold digitsOfPos
        rw [if_neg (by omega), if_neg (by omega)]
        have hdiv : n / 10 < n := Nat.div_lt_self hn (by omega)
        rw [ih (n / 10) hdiv a b (by omega) (by omega)]

theorem digitsOfPos_ne_nil {n : Nat} (hn : 0 < n) : digitsOfPos n n ≠ [] := by
  obtain ⟨m, rfl⟩ : ∃ m, n = m + 1 := ⟨n - 1, by omega⟩
  unfold digitsOfPos
  rw [if_neg (by omega)]
  simp

theorem digitsOf_ne_nil (n : Nat) : digitsOf n ≠ [] := by
  unfold digitsOf
  rcases Nat.eq_zero_or_pos n with rfl | hn
  · simp
  · rw [if_neg (by omega)]
    exact digitsOfPos_ne_nil hn

theorem digitsOfPos_all : ∀ (n f : Nat), n ≤ f → ∀ c ∈ digitsOfPos f n,
    c.isDigit = true ∧ c ≠ '_' ∧ c.isWhitespace = false := by
  intro n
  induction n using Nat.strong_induction_on with
  | _ n ih =>
      intro f hf c hc
      rcases Nat.eq_zero_or_pos n with rfl | hn
      · rw [digitsOfPos_zero] at hc
        simp at hc
      · obtain ⟨a, rfl⟩ : ∃ a, f = a + 1 := ⟨f - 1, by omega⟩
        unfold digitsOfPos at hc
        rw [if_neg (by omega)] at hc
        rcases List.mem_append.mp hc with h | h
        · have hdiv : n / 10 < n := Nat.div_lt_self hn (by omega)
          exact ih (n / 10) hdiv a (by omega) c h
        · rw [List.mem_singleton] at h
          subst h
          obtain ⟨p1, p2, p3, _⟩ := digitChar_props (Nat.mod_lt n (by omega))
          exact ⟨p1, p2, p3⟩

theorem digitsOf_all (n : Nat) : ∀ c ∈ digitsOf n,
    c.isDigit = true ∧ c ≠ '_' ∧ c.isWhitespace = false := by
  unfold digitsOf
  rcases Nat.eq_zero_or_pos n with rfl | hn
  · intro c hc
    simp at hc
    subst hc
    exact ⟨by decide, by decide, by decide⟩
  · rw [if_neg (by omega)]
    exact digitsOfPos_all n n (le_refl n)

theorem natOfDigitChars_append_digit (xs : List Char) (c : Char) :
    natOfDigitChars (xs ++ [c]) = 10 * natOfDigitChars xs + (c.toNat - 48) := by
  unfold natOfDigitChars
  rw [List.foldl_append]
  rfl

theorem natOfDigitChars_digitsOfPos : ∀ (n f : Nat), n ≤ f →
    natOfDigitChars (digitsOfPos f n) = n := by
  intro n
  induction n using Nat.strong_induction_on with
  | _ n ih =>
      intro f hf
      rcases Nat.eq_zero_or_pos n with rfl | hn
      · rw [digitsOfPos_zero]
        rfl
      · obtain ⟨a, rfl⟩ : ∃ a, f = a + 1 := ⟨f - 1, by omega⟩
        unfold digitsOfPos
        rw [if_neg (by omega), natOfDigitChars_append_digit]
        have hdiv : n / 10 < n := Nat.div_lt_self hn (by omega)
        rw [ih (n / 10) hdiv a (by omega)]
        obtain ⟨_, _, _, h4⟩ := digitChar_props (Nat.mod_lt n (show 0 < 10 by omega))
        rw [h4]
        omega

theorem natOfDigitChars_digitsOf (n : Nat) :
    natOfDigitChars (digitsOf n) = n := by
  unfold digitsOf
  rcases Nat.eq_zero_or_pos n with rfl | hn
  · decide
  · rw [if_neg (by omega)]
    exact natOfDigitChars_digitsOfPos n n (le_refl n)

theorem digitsOfPos_succ {n a : Nat} (hn : n ≠ 0) :
    digitsOfPos (a + 1) n = digitsOfPos a (n / 10) ++ [Char.ofNat (48 + n % 10)] := by
  conv_lhs => unfold digitsOfPos
  rw [if_neg hn]

theorem digitsOfPos_length_succ {n : Nat} (hn : 0 < n) {f : Nat} (hf : n ≤ f) :
    (digitsOfPos f n).length = (digitsOfPos (n / 10) (n / 10)).length + 1 := by
  obtain ⟨a, rfl⟩ : ∃ a, f = a + 1 := ⟨f - 1, by omega⟩
  rw [digitsOfPos_succ (by omega)]
  rw [List.length_append, List.length_singleton]
  congr 1
  exact congrArg List.length (digitsOfPos_fuel (n / 10) a (n / 10) (by omega) (le_refl _))

theorem digitsOfPos_length_mono : ∀ (n m : Nat), m ≤ n → 0 < m →
    (digitsOfPos m m).length ≤ (digitsOfPos n n).length := by
  intro n
  induction n using Nat.strong_induction_on with
  | _ n ih =>
      intro m hmn hm
      have hn : 0 < n := lt_of_lt_of_le hm hmn
      rw [digitsOfPos_length_succ hm (le_refl m), digitsOfPos_length_succ hn (le_refl n)]
      rcases Nat.eq_zero_or_pos (m / 10) with hz | hpos
      · rw [hz, digitsOfPos_zero]
        simp
      · have hdiv : n / 10 < n := Nat.div_lt_self hn (by omega)
        have hle : m / 10 ≤ n / 10 := Nat.div_le_div_right hmn
        exact Nat.succ_le_succ (ih (n / 10) hdiv (m / 10) hle hpos)

theorem digitsOf_length_mono {m n : Nat} (h : m ≤ n) :
    (digitsOf m).length ≤ (digitsOf n).length := by
  unfold digitsOf
  rcases Nat.eq_zero_or_pos m with rfl | hm
  · rcases Nat.eq_zero_or_pos n with rfl | hn
    · exact le_refl _
    · rw [if_pos rfl, if_neg (by omega)]
      have := digitsOfPos_ne_nil hn
      have hlen : 0 < (digitsOfPos n n).length := List.length_pos.mpr this
      simpa using hlen
  · have hn : 0 < n := lt_of_lt_of_le hm h
    rw [if_neg (by omega), if_neg (by omega)]
    exact digitsOfPos_length_mono n m h hm

theorem takeWhile_append_cons {α : Type} {p : α → Bool} {l1 : List α}
    (h : ∀ c ∈ l1, p c = true) {a : α} (ha : p a = false) (l2 : List α) :
    ((l1 ++ a :: l2).takeWhile p) = l1 := by
  induction l1 with
  | nil => rw [List.nil_append, List.takeWhile_cons, if_neg (by simp [ha])]
  | cons x xs ih =>
      rw [List.cons_append, List.takeWhile_cons,
        if_pos (h x (List.mem_cons_self x xs))]
      rw [ih (fun c hc => h c (List.mem_cons_of_mem x hc))]

theorem takeWhile_append_drop {α : Type} (p : α → Bool) (l : List α) :
    l.takeWhile p ++ l.drop (l.takeWhile p).length = l := by
  induction l with
  | nil => rfl
  | cons a t ih =>
      rw [List.takeWhile_cons]
      by_cases hp : p a = true
      · rw [if_pos hp, List.length_cons, List.drop_succ_cons, List.cons_append, ih]
      · rw [if_neg hp]
        simp

theorem mem_takeWhile_true {α : Type} {p : α → Bool} {l : List α} {a : α}
    (h : a ∈ l.takeWhile p) : p a = true := by
  induction l with
  | nil => simp [List.takeWhile] at h
  | cons x t ih =>
      rw [List.takeWhile_cons] at h
      by_cases hp : p x = true
      · rw [if_pos hp] at h
        rcases List.mem_cons.mp h with rfl | h2
        · exact hp
        · exact ih h2
      · rw [if_neg hp] at h
        simp at h

theorem eq_cons_tail_of_head_some {α : Type} {l : List α} {a : α}
    (h : l.head? = some a) : l = a :: l.tail := by
  cases l with
  | nil => simp at h
  | cons b t =>
      simp only [List.head?_cons, Option.some.injEq] at h
      rw [h]
      rfl

theorem parseTrailing_append (base ds : List Char)
    (hdd : ∀ c ∈ ds, c.isDigit = true) :
    parseTrailing (base ++ '_' :: ds) =
      if ds ≠ [] ∧ base ≠ [] ∧ (∀ c ∈ base, c.isWhitespace = false)
      then some (base, ds) else none := by
  have hrev : (base ++ '_' :: ds).reverse = ds.reverse ++ '_' :: base.reverse := by
    simp
  have htw : ((base ++ '_' :: ds).reverse.takeWhile Char.isDigit) = ds.reverse := by
    rw [hrev]
    exact takeWhile_append_cons (fun c hc => hdd c (List.mem_reverse.mp hc))
      (by decide) _
  unfold parseTrailing
  rw [htw, hrev, List.drop_left]
  simp only [List.head?_cons, List.tail_cons, List.reverse_reverse]
  by_cases hcond : ds ≠ [] ∧ base ≠ [] ∧ (∀ c ∈ base, c.isWhitespace = false)
  · rw [if_pos hcond, if_pos]
    refine ⟨by trivial, by simpa using hcond.1, by simpa using hcond.2.1, ?_⟩
    rw [List.all_eq_true]
    intro c hc
    rw [List.mem_reverse] at hc
    simp [hcond.2.2 c hc]
  · rw [if_neg hcond, if_neg]
    intro hcon
    apply hcond
    obtain ⟨-, hds, hb, hall⟩ := hcon
    refine ⟨by simpa using hds, by simpa using hb, ?_⟩
    intro c hc
    have := List.all_eq_true.mp hall c (List.mem_reverse.mpr hc)
    simpa using this

theorem parseTrailing_some {name base ds : List Char}
    (h : parseTrailing name = some (base, ds)) :
    base ≠ [] ∧ (∀ c ∈ base, c.isWhitespace = false) ∧ ds ≠ [] ∧
    (∀ c ∈ ds, c.isDigit = true) ∧ name = base ++ '_' :: ds := by
  unfold parseTrailing at h
  split at h
  · rename_i hcond
    obtain ⟨hh, hne, ht, hall⟩ := hcond
    obtain ⟨hbase, hds⟩ := Prod.mk.inj (Option.some.inj h)
    have hrest := eq_cons_tail_of_head_some hh
    refine ⟨?_, ?_, ?_, ?_, ?_⟩
    · rw [← hbase]
      simpa using ht
    · intro c hc
      rw [← hbase, List.mem_reverse] at hc
      have := List.all_eq_true.mp hall c hc
      simpa using this
    · rw [← hds]
      simpa using hne
    · intro c hc
      rw [← hds, List.mem_reverse] at hc
      exact mem_takeWhile_true hc
    · rw [← hbase, ← hds]
      calc name = name.reverse.reverse := (List.reverse_reverse name).symm
        _ = ((name.reverse.takeWhile Char.isDigit) ++
            (name.reverse.drop ((name.reverse.takeWhile Char.isDigit)).length)).reverse := by
              rw [takeWhile_append_drop]
        _ = ((name.reverse.takeWhile Char.isDigit) ++ '_' ::
            (name.reverse.drop ((name.reverse.takeWhile Char.isDigit)).length).tail).reverse := by
              rw [← hrest]
        _ = _ := by simp
  · exact absurd h (by simp)

theorem nameNum_of_parse_some {name base ds : List Char}
    (h : parseTrailing name = some (base, ds)) :
    nameNum name = natOfDigitChars ds := by
  unfold nameNum
  rw [h]

theorem next_of_parse_some {name base ds : List Char}
    (h : parseTrailing name = some (base, ds)) :
    next_indexed_variable name =
      base ++ '_' :: digitsOf (natOfDigitChars ds + 1) := by
  unfold next_indexed_variable
  rw [h]

theorem next_of_parse_none_underscore {name : List Char}
    (h : parseTrailing name = none) (h2 : name.getLast? = some '_') :
    next_indexed_variable name = name ++ ['0'] := by
  unfold next_indexed_variable
  rw [h]
  show (if name.getLast? = some '_' then name ++ ['0'] else name ++ ['_', '0']) = _
  rw [if_pos h2]

theorem next_of_parse_none_other {name : List Char}
    (h : parseTrailing name = none) (h2 : ¬ name.getLast? = some '_') :
    next_indexed_variable name = name ++ ['_', '0'] := by
  unfold next_indexed_variable
  rw [h]
  show (if name.getLast? = some '_' then name ++ ['0'] else name ++ ['_', '0']) = _
  rw [if_neg h2]

theorem canonName_next (name : List Char) :
    canonName (next_indexed_variable name) := by
  cases hpt : parseTrailing name with
  | some bd =>
      obtain ⟨base, ds⟩ := bd
      rw [next_of_parse_some hpt]
      intro p hp
      obtain ⟨hb, hbw, -, -, -⟩ := parseTrailing_some hpt
      rw [parseTrailing_append _ _ (fun c hc => (digitsOf_all _ c hc).1)] at hp
      rw [if_pos ⟨digitsOf_ne_nil _, hb, hbw⟩] at hp
      rw [← Option.some.inj hp]
      show digitsOf (natOfDigitChars ds + 1) =
        digitsOf (natOfDigitChars (digitsOf (natOfDigitChars ds + 1)))
      rw [natOfDigitChars_digitsOf]
  | none =>
      by_cases hl : name.getLast? = some '_'
      · rw [next_of_parse_none_underscore hpt hl]
        intro p hp
        have hnn : name ≠ [] := by
          intro h0
          rw [h0] at hl
          simp at hl
        have hname : name = name.dropLast ++ ['_'] := by
          have hg : name.getLast hnn = '_' := by
            have := List.getLast?_eq_getLast name hnn
            rw [this] at hl
            exact Option.some.inj hl
          rw [← hg]
          exact (List.dropLast_append_getLast hnn).symm
        rw [hname, List.append_assoc] at hp
        rw [show (['_'] ++ ['0'] : List Char) = '_' :: ['0'] from rfl] at hp
        rw [parseTrailing_append _ _ (by decide)] at hp
        split at hp
        · rw [← Option.some.inj hp]
          show (['0'] : List Char) = digitsOf (natOfDigitChars ['0'])
          decide
        · exact absurd hp (by simp)
      · rw [next_of_parse_none_other hpt hl]
        intro p hp
        rw [show (name ++ ['_', '0'] : List Char) = name ++ '_' :: ['0'] from rfl] at hp
        rw [parseTrailing_append _ _ (by decide)] at hp
        split at hp
        · rw [← Option.some.inj hp]
          show (['0'] : List Char) = digitsOf (natOfDigitChars ['0'])
          decide
        · exact absurd hp (by simp)

theorem nameLt_next {name : List Char} (h : canonName name) :
    nameLt name (next_indexed_variable name) := by
  cases hpt : parseTrailing name with
  | some bd =>
      obtain ⟨base, ds⟩ := bd
      have hcan : ds = digitsOf (natOfDigitChars ds) := h (base, ds) hpt
      obtain ⟨hb, hbw, hdne, hdd, hname⟩ := parseTrailing_some hpt
      rw [next_of_parse_some hpt]
      have hlen : (digitsOf (natOfDigitChars ds)).length ≤
          (digitsOf (natOfDigitChars ds + 1)).length :=
        digitsOf_length_mono (by omega)
      rw [← hcan] at hlen
      have hparse2 : parseTrailing (base ++ '_' :: digitsOf (natOfDigitChars ds + 1)) =
          some (base, digitsOf (natOfDigitChars ds + 1)) := by
        rw [parseTrailing_append _ _ (fun c hc => (digitsOf_all _ c hc).1)]
        rw [if_pos ⟨digitsOf_ne_nil _, hb, hbw⟩]
      rcases lt_or_eq_of_le hlen with hlt | heq
      · left
        rw [hname]
        simp only [List.length_append, List.length_cons]
        omega
      · right
        constructor
        · rw [hname]
          simp only [List.length_append, List.length_cons]
          omega
        · rw [nameNum_of_parse_some hpt, nameNum_of_parse_some hparse2]
          rw [natOfDigitChars_digitsOf]
          omega
  | none =>
      by_cases hl : name.getLast? = some '_'
      · rw [next_of_parse_none_underscore hpt hl]
        left
        simp
      · rw [next_of_parse_none_other hpt hl]
        left
        simp

theorem nameLt_trans {a b c : List Char}
    (h1 : nameLt a b) (h2 : nameLt b c) : nameLt a c := by
  unfold nameLt at h1 h2 ⊢
  omega

theorem nameLt_irrefl (a : List Char) : ¬ nameLt a a := by
  unfold nameLt
  omega

theorem findFresh_not_mem_aux :
    ∀ (fuel : Nat) (used : List (List Char)) (cand : List Char),
      canonName cand →
      (used.toFinset.filter (fun x => ¬ nameLt x cand)).card < fuel →
      findFresh fuel used cand ∉ used := by
  intro fuel
  induction fuel with
  | zero =>
      intro used cand _ hcard
      exact absurd hcard (Nat.not_lt_zero _)
  | succ fuel ih =>
      intro used cand hc hcard
      show (if cand ∈ used then findFresh fuel used (next_indexed_variable cand)
        else cand) ∉ used
      by_cases hmem : cand ∈ used
      · rw [if_pos hmem]
        apply ih used (next_indexed_variable cand) (canonName_next cand)
        have hsub : used.toFinset.filter (fun x => ¬ nameLt x (next_indexed_variable cand)) ⊆
            used.toFinset.filter (fun x => ¬ nameLt x cand) := by
          intro x hx
          rw [Finset.mem_filter] at hx ⊢
          refine ⟨hx.1, ?_⟩
          intro hlt
          exact hx.2 (nameLt_trans hlt (nameLt_next hc))
        have hmemc : cand ∈ used.toFinset.filter (fun x => ¬ nameLt x cand) := by
          rw [Finset.mem_filter, List.mem_toFinset]
          exact ⟨hmem, nameLt_irrefl cand⟩
        have hnotc : cand ∉
            used.toFinset.filter (fun x => ¬ nameLt x (next_indexed_variable cand)) := by
          rw [Finset.mem_filter]
          rintro ⟨-, h2⟩
          exact h2 (nameLt_next hc)
        have hss := (Finset.ssubset_iff_of_subset hsub).mpr ⟨cand, hmemc, hnotc⟩
        have := Finset.card_lt_card hss
        omega
      · rw [if_neg hmem]
        exact hmem

theorem findFresh_not_mem (used : List (List Char)) (cand : List Char)
    (hc : canonName cand) : findFresh (used.length + 1) used cand ∉ used := by
  apply findFresh_not_mem_aux (used.length + 1) used cand hc
  have h1 : (used.toFinset.filter (fun x => ¬ nameLt x cand)).card ≤ used.toFinset.card :=
    Finset.card_filter_le _ _
  have h2 : used.toFinset.card ≤ used.length := used.toFinset_card_le
  omega

theorem freshName_not_used (st : NamingState) (call : PCall) :
    freshName st call ∉ usedNames st :=
  findFresh_not_mem _ _ (canonName_next _)

theorem dictGet_dictSet_self {K V : Type} [DecidableEq K] (k : K) (v : V)
    (d : List (K × V)) : dictGet k (dictSet k v d) = some v := by
  induction d with
  | nil => simp [dictSet, dictGet]
  | cons p rest ih =>
      obtain ⟨k', v'⟩ := p
      by_cases hk : k' = k
      · subst hk
        simp [dictSet, dictGet]
      · simp [dictSet, dictGet, hk, ih]

theorem dictGet_dictSet_ne {K V : Type} [DecidableEq K] {k k2 : K}
    (hne : k2 ≠ k) (v : V) (d : List (K × V)) :
    dictGet k2 (dictSet k v d) = dictGet k2 d := by
  induction d with
  | nil => simp [dictSet, dictGet, Ne.symm hne]
  | cons p rest ih =>
      obtain ⟨k', v'⟩ := p
      by_cases hk : k' = k
      · subst hk
        simp [dictSet, dictGet, Ne.symm hne]
      · simp [dictSet, dictGet, hk, ih]

theorem dictGet_none_iff {K V : Type} [DecidableEq K] (k : K)
    (d : List (K × V)) : dictGet k d = none ↔ ∀ p ∈ d, p.1 ≠ k := by
  induction d with
  | nil => simp [dictGet]
  | cons p rest ih =>
      obtain ⟨k', v'⟩ := p
      by_cases hk : k' = k
      · subst hk
        constructor
        · intro h
          rw [show dictGet k' ((k', v') :: rest) = some v' from by simp [dictGet]] at h
          exact absurd h (by simp)
        · intro h
          exact absurd rfl (h (k', v') (List.mem_cons_self _ _))
      · rw [show dictGet k ((k', v') :: rest) = dictGet k rest from by
          simp [dictGet, hk]]
        rw [ih]
        constructor
        · intro h
          intro p hp
          rcases List.mem_cons.mp hp with rfl | hp2
          · exact hk
          · exact h p hp2
        · intro h p hp
          exact h p (List.mem_cons_of_mem _ hp)

theorem dictGet_mem {K V : Type} [DecidableEq K] {k : K} {v : V}
    {d : List (K × V)} (h : dictGet k d = some v) : (k, v) ∈ d := by
  induction d with
  | nil => exact absurd h (by simp [dictGet])
  | cons p rest ih =>
      obtain ⟨k', v'⟩ := p
      by_cases hk : k' = k
      · subst hk
        rw [show dictGet k' ((k', v') :: rest) = some v' from by simp [dictGet]] at h
        rw [← Option.some.inj h]
        exact List.mem_cons_self _ _
      · rw [show dictGet k ((k', v') :: rest) = dictGet k rest from by
          simp [dictGet, hk]] at h
        exact List.mem_cons_of_mem _ (ih h)

theorem dictGet_inj_of_nodup_values {K V : Type} [DecidableEq K]
    {d : List (K × V)} (hnd : (d.map Prod.snd).Nodup) {k1 k2 : K} {v : V}
    (h1 : dictGet k1 d = some v) (h2 : dictGet k2 d = some v) : k1 = k2 := by
  have hm1 := dictGet_mem h1
  have hm2 := dictGet_mem h2
  have heq := List.inj_on_of_nodup_map hnd hm1 hm2 rfl
  exact congrArg Prod.fst heq

theorem mem_keys_dictSet_self {K V : Type} [DecidableEq K] (k : K) (v : V)
    (d : List (K × V)) : k ∈ (dictSet k v d).map Prod.fst := by
  induction d with
  | nil => simp [dictSet]
  | cons p rest ih =>
      obtain ⟨k', v'⟩ := p
      by_cases hk : k' = k
      · subst hk
        simp [dictSet]
      · rw [show dictSet k v ((k', v') :: rest) = (k', v') :: dictSet k v rest from by
          simp [dictSet, hk]]
        rw [List.map_cons]
        exact List.mem_cons_of_mem _ ih

theorem mem_keys_dictSet_of_mem {K V : Type} [DecidableEq K] (k : K) (v : V)
    {d : List (K × V)} {x : K} (hx : x ∈ d.map Prod.fst) :
    x ∈ (dictSet k v d).map Prod.fst := by
  induction d with
  | nil => simp at hx
  | cons p rest ih =>
      obtain ⟨k', v'⟩ := p
      rw [List.map_cons, List.mem_cons] at hx
      by_cases hk : k' = k
      · subst hk
        rw [show dictSet k' v ((k', v') :: rest) = (k', v) :: rest from by
          simp [dictSet]]
        rw [List.map_cons, List.mem_cons]
        exact hx
      · rw [show dictSet k v ((k', v') :: rest) = (k', v') :: dictSet k v rest from by
          simp [dictSet, hk]]
        rw [List.map_cons, List.mem_cons]
        rcases hx with h | h
        · exact Or.inl h
        · exact Or.inr (ih h)

theorem registerStep_eq (st : NamingState) (call : PCall) (cal : KCallable) :
    registerStep st (call, cal) = registerStepCore st call cal := rfl

theorem registerStepCore_found_fns (st : NamingState) (call : PCall)
    (cal : KCallable) (nm : List Char)
    (h : dictGet cal st.scopedFunctionsToNames = some nm) :
    (registerStepCore st call cal).scopedFunctionsToNames =
      st.scopedFunctionsToNames := by
  unfold registerStepCore
  rw [h]

theorem registerStepCore_found_names (st : NamingState) (call : PCall)
    (cal : KCallable) (nm : List Char)
    (h : dictGet cal st.scopedFunctionsToNames = some nm) :
    (registerStepCore st call cal).scopedNamesToFunctions =
      st.scopedNamesToFunctions := by
  unfold registerStepCore
  rw [h]

theorem registerStepCore_found_pym (st : NamingState) (call : PCall)
    (cal : KCallable) (nm : List Char)
    (h : dictGet cal st.scopedFunctionsToNames = some nm) :
    (registerStepCore st call cal).pymbolicCallsToNewNames =
      dictSet call nm st.pymbolicCallsToNewNames := by
  unfold registerStepCore
  rw [h]

theorem registerStepCore_notfound_fns (st : NamingState) (call : PCall)
    (cal : KCallable) (h : dictGet cal st.scopedFunctionsToNames = none) :
    (registerStepCore st call cal).scopedFunctionsToNames =
      dictSet (applyNameInTarget cal (freshName st call)) (freshName st call)
        st.scopedFunctionsToNames := by
  unfold registerStepCore
  rw [h]

theorem registerStepCore_notfound_names (st : NamingState) (call : PCall)
    (cal : KCallable) (h : dictGet cal st.scopedFunctionsToNames = none) :
    (registerStepCore st call cal).scopedNamesToFunctions =
      dictSet (freshName st call) (applyNameInTarget cal (freshName st call))
        st.scopedNamesToFunctions := by
  unfold registerStepCore
  rw [h]

theorem registerStepCore_notfound_pym (st : NamingState) (call : PCall)
    (cal : KCallable) (h : dictGet cal st.scopedFunctionsToNames = none) :
    (registerStepCore st call cal).pymbolicCallsToNewNames =
      dictSet call (freshName st call) st.pymbolicCallsToNewNames := by
  unfold registerStepCore
  rw [h]

theorem applyNameInTarget_of_isScalar {cal : KCallable}
    (h : cal.isScalar = true) (u : List Char) : applyNameInTarget cal u = cal := by
  cases cal with
  | scalar s => rfl
  | ckernel c => simp [KCallable.isScalar] at h

theorem registerStep_inv {st : NamingState} {call : PCall} {cal : KCallable}
    (hs : cal.isScalar = true) (hinv : stInv st) :
    stInv (registerStepCore st call cal) := by
  unfold stInv usedNames at hinv ⊢
  obtain ⟨hsub, hvnd, hknd⟩ := hinv
  cases hfound : dictGet cal st.scopedFunctionsToNames with
  | some nm =>
      rw [registerStepCore_found_fns st call cal nm hfound,
        registerStepCore_found_names st call cal nm hfound]
      exact ⟨hsub, hvnd, hknd⟩
  | none =>
      have hfns : (registerStepCore st call cal).scopedFunctionsToNames =
          dictSet cal (freshName st call) st.scopedFunctionsToNames := by
        rw [registerStepCore_notfound_fns st call cal hfound,
          applyNameInTarget_of_isScalar hs]
      have hnames : (registerStepCore st call cal).scopedNamesToFunctions =
          dictSet (freshName st call) cal st.scopedNamesToFunctions := by
        rw [registerStepCore_notfound_names st call cal hfound,
          applyNameInTarget_of_isScalar hs]
      have hckeys : ∀ p ∈ st.scopedFunctionsToNames, p.1 ≠ cal :=
        (dictGet_none_iff cal st.scopedFunctionsToNames).mp hfound
      have happ := dictSet_eq_append cal (freshName st call)
        st.scopedFunctionsToNames hckeys
      rw [hfns, hnames, happ]
      refine ⟨?_, ?_, ?_⟩
      · intro nm hnm
        rw [List.map_append, List.mem_append] at hnm
        rcases hnm with h | h
        · exact mem_keys_dictSet_of_mem _ _ (hsub nm h)
        · have : nm = freshName st call := by simpa using h
          rw [this]
          exact mem_keys_dictSet_self _ _ _
      · rw [List.map_append, List.nodup_append]
        refine ⟨hvnd, List.nodup_singleton _, ?_⟩
        intro x hx hx2
        simp only [List.map_cons, List.map_nil, List.mem_singleton] at hx2
        subst hx2
        exact freshName_not_used st call (hsub _ hx)
      · rw [List.map_append, List.nodup_append]
        refine ⟨hknd, List.nodup_singleton _, ?_⟩
        intro x hx hx2
        simp only [List.map_cons, List.map_nil, List.mem_singleton] at hx2
        subst hx2
        rw [List.mem_map] at hx
        obtain ⟨p, hp, hp2⟩ := hx
        exact hckeys p hp hp2

theorem foldl_register_pym_preserved :
    ∀ (rest : List (PCall × KCallable)) (st : NamingState) (x : PCall),
      x ∉ rest.map Prod.fst →
      dictGet x (rest.foldl registerStep st).pymbolicCallsToNewNames =
        dictGet x st.pymbolicCallsToNewNames := by
  intro rest
  induction rest with
  | nil => intro st x _; rfl
  | cons q rest ih =>
      intro st x hx
      obtain ⟨call, cal⟩ := q
      have hx1 : x ≠ call := by
        intro h
        exact hx (by rw [List.map_cons]; exact List.mem_cons.mpr (Or.inl h))
      have hx2 : x ∉ rest.map Prod.fst := by
        intro h
        exact hx (by rw [List.map_cons]; exact List.mem_cons.mpr (Or.inr h))
      rw [List.foldl_cons, ih (registerStep st (call, cal)) x hx2, registerStep_eq]
      cases hfound : dictGet cal st.scopedFunctionsToNames with
      | some nm =>
          rw [registerStepCore_found_pym st call cal nm hfound]
          exact dictGet_dictSet_ne hx1 nm st.pymbolicCallsToNewNames
      | none =>
          rw [registerStepCore_notfound_pym st call cal hfound]
          exact dictGet_dictSet_ne hx1 _ _

theorem foldl_register_fns_preserved :
    ∀ (rest : List (PCall × KCallable)) (st : NamingState) (cal : KCallable)
      (nm : List Char),
      (∀ p ∈ rest, p.2.isScalar = true) →
      dictGet cal st.scopedFunctionsToNames = some nm →
      dictGet cal (rest.foldl registerStep st).scopedFunctionsToNames = some nm := by
  intro rest
  induction rest with
  | nil => intro st cal nm _ h; exact h
  | cons q rest ih =>
      intro st cal nm hsc h
      obtain ⟨call, cal'⟩ := q
      rw [List.foldl_cons]
      apply ih _ _ _ (fun p hp => hsc p (List.mem_cons_of_mem _ hp))
      rw [registerStep_eq]
      cases hfound : dictGet cal' st.scopedFunctionsToNames with
      | some nm2 =>
          rw [registerStepCore_found_fns st call cal' nm2 hfound]
          exact h
      | none =>
          have hs' : cal'.isScalar = true := hsc (call, cal') (List.mem_cons_self _ _)
          have hfns : (registerStepCore st call cal').scopedFunctionsToNames =
              dictSet cal' (freshName st call) st.scopedFunctionsToNames := by
            rw [registerStepCore_notfound_fns st call cal' hfound,
              applyNameInTarget_of_isScalar hs']
          rw [hfns]
          have hne : cal ≠ cal' := by
            intro heq
            rw [heq] at h
            rw [h] at hfound
            exact Option.noConfusion hfound
          rw [dictGet_dictSet_ne hne]
          exact h

theorem registerLoop_main :
    ∀ (pairs : List (PCall × KCallable)) (st : NamingState),
      (∀ p ∈ pairs, p.2.isScalar = true) →
      (pairs.map Prod.fst).Nodup →
      stInv st →
      stInv (pairs.foldl registerStep st) ∧
      ∀ p ∈ pairs, ∃ nm,
        dictGet p.1 (pairs.foldl registerStep st).pymbolicCallsToNewNames = some nm ∧
        dictGet p.2 (pairs.foldl registerStep st).scopedFunctionsToNames = some nm := by
  intro pairs
  induction pairs with
  | nil =>
      intro st _ _ hinv
      exact ⟨hinv, by simp⟩
  | cons q rest ih =>
      intro st hsc hnd hinv
      obtain ⟨call, cal⟩ := q
      have hs : cal.isScalar = true := hsc (call, cal) (List.mem_cons_self _ _)
      have hsr : ∀ p ∈ rest, p.2.isScalar = true :=
        fun p hp => hsc p (List.mem_cons_of_mem _ hp)
      rw [List.map_cons, List.nodup_cons] at hnd
      obtain ⟨hq1, hndr⟩ := hnd
      have hinv' : stInv (registerStep st (call, cal)) := by
        rw [registerStep_eq]
        exact registerStep_inv hs hinv
      rw [List.foldl_cons]
      obtain ⟨hinvF, hrest⟩ := ih (registerStep st (call, cal)) hsr hndr hinv'
      refine ⟨hinvF, ?_⟩
      intro p hp
      rcases List.mem_cons.mp hp with rfl | hpr
      · have hstep : ∃ nm,
            dictGet call (registerStep st (call, cal)).pymbolicCallsToNewNames = some nm ∧
            dictGet cal (registerStep st (call, cal)).scopedFunctionsToNames = some nm := by
          rw [registerStep_eq]
          cases hfound : dictGet cal st.scopedFunctionsToNames with
          | some nm =>
              refine ⟨nm, ?_, ?_⟩
              · rw [registerStepCore_found_pym st call cal nm hfound]
                exact dictGet_dictSet_self call nm _
              · rw [registerStepCore_found_fns st call cal nm hfound]
                exact hfound
          | none =>
              refine ⟨freshName st call, ?_, ?_⟩
              · rw [registerStepCore_notfound_pym st call cal hfound]
                exact dictGet_dictSet_self call _ _
              · rw [registerStepCore_notfound_fns st call cal hfound,
                  applyNameInTarget_of_isScalar hs]
                exact dictGet_dictSet_self cal _ _
        obtain ⟨nm, hpym, hfns⟩ := hstep
        refine ⟨nm, ?_, ?_⟩
        · show dictGet call
            (rest.foldl registerStep (registerStep st (call, cal))).pymbolicCallsToNewNames =
              some nm
          rw [foldl_register_pym_preserved rest _ call hq1]
          exact hpym
        · show dictGet cal
            (rest.foldl registerStep (registerStep st (call, cal))).scopedFunctionsToNames =
              some nm
          exact foldl_register_fns_preserved rest _ cal nm hsr hfns
      · exact hrest p hpr

theorem list_toFinset_map {α β : Type} [DecidableEq α] [DecidableEq β]
    (f : α → β) (l : List α) : (l.map f).toFinset = l.toFinset.image f := by
  ext b
  simp

/-- C5 counterexample: two call sites resolving to one and the same
`CallableKernel` value receive two different names (`func_0`, `func_1`),
because the table entry is keyed by the callable after
`copy(name_in_target=...)` while the lookup uses the original callable. -/
theorem register_ckernel_equal_callables_distinct_names :
    dictGet exPCall1 (register_pymbolic_calls_to_knl_callables []
        [(exPCall1, .ckernel exCk), (exPCall2, .ckernel exCk)]).pymbolicCallsToNewNames =
      some ("func_0".data) ∧
    dictGet exPCall2 (register_pymbolic_calls_to_knl_callables []
        [(exPCall1, .ckernel exCk), (exPCall2, .ckernel exCk)]).pymbolicCallsToNewNames =
      some ("func_1".data) ∧
    ("func_0".data : List Char) ≠ "func_1".data := by
  refine ⟨by decide, by decide, by decide⟩

/-- C5: processing call ↦ callable pairs with pairwise-distinct call
expressions whose callables are all `ScalarCallable`s (the case in which
the source does not rebind `in_knl_callable` before keying the table),
every call site receives exactly the name recorded for its callable in
`scoped_functions_to_names`; two call sites receive the same name iff
their callables are equal by value; and the number of distinct names
assigned equals the number of distinct callables. -/
theorem register_assigns_one_name_per_distinct_callable_value
    (initialScoped : List (List Char × KCallable))
    (pairs : List (PCall × KCallable))
    (hscalar : ∀ p ∈ pairs, p.2.isScalar = true)
    (hkeys : (pairs.map Prod.fst).Nodup) :
    (∀ p ∈ pairs,
      dictGet p.1 (register_pymbolic_calls_to_knl_callables initialScoped
          pairs).pymbolicCallsToNewNames =
        dictGet p.2 (register_pymbolic_calls_to_knl_callables initialScoped
          pairs).scopedFunctionsToNames ∧
      (dictGet p.2 (register_pymbolic_calls_to_knl_callables initialScoped
          pairs).scopedFunctionsToNames).isSome = true) ∧
    (∀ p ∈ pairs, ∀ q ∈ pairs,
      (dictGet p.1 (register_pymbolic_calls_to_knl_callables initialScoped
          pairs).pymbolicCallsToNewNames =
        dictGet q.1 (register_pymbolic_calls_to_knl_callables initialScoped
          pairs).pymbolicCallsToNewNames ↔ p.2 = q.2)) ∧
    ((pairs.map Prod.snd).map
        (fun cal => dictGet cal (register_pymbolic_calls_to_knl_callables
          initialScoped pairs).scopedFunctionsToNames)).toFinset.card =
      (pairs.map Prod.snd).toFinset.card := by
  have hinv0 : stInv ⟨initialScoped, [], []⟩ := by
    unfold stInv
    refine ⟨?_, ?_, ?_⟩ <;> simp
  obtain ⟨hinvF, hmain⟩ :=
    registerLoop_main pairs ⟨initialScoped, [], []⟩ hscalar hkeys hinv0
  have hreg : register_pymbolic_calls_to_knl_callables initialScoped pairs =
      pairs.foldl registerStep ⟨initialScoped, [], []⟩ := rfl
  rw [hreg]
  obtain ⟨-, hvnd, -⟩ := hinvF
  refine ⟨?_, ?_, ?_⟩
  · intro p hp
    obtain ⟨nm, h1, h2⟩ := hmain p hp
    rw [h1, h2]
    exact ⟨rfl, rfl⟩
  · intro p hp q hq
    obtain ⟨nmp, hp1, hp2⟩ := hmain p hp
    obtain ⟨nmq, hq1, hq2⟩ := hmain q hq
    rw [hp1, hq1]
    constructor
    · intro h
      have hnmeq : nmp = nmq := Option.some.inj h
      rw [hnmeq] at hp2
      exact dictGet_inj_of_nodup_values hvnd hp2 hq2
    · intro h
      rw [h] at hp2
      rw [hp2] at hq2
      exact hq2
  · rw [list_toFinset_map]
    apply Finset.card_image_of_injOn
    intro c1 hc1 c2 hc2 hf
    rw [Finset.mem_coe, List.mem_toFinset, List.mem_map] at hc1 hc2
    obtain ⟨p, hp, hp2⟩ := hc1
    obtain ⟨q, hq, hq2⟩ := hc2
    obtain ⟨nmp, -, hpf⟩ := hmain p hp
    obtain ⟨nmq, -, hqf⟩ := hmain q hq
    rw [hp2] at hpf
    rw [hq2] at hqf
    have hf2 : dictGet c1 (pairs.foldl registerStep
        (⟨initialScoped, [], []⟩ : NamingState)).scopedFunctionsToNames =
      dictGet c2 (pairs.foldl registerStep
        (⟨initialScoped, [], []⟩ : NamingState)).scopedFunctionsToNames := hf
    rw [hpf, hqf] at hf2
    have hnmeq : nmp = nmq := Option.some.inj hf2
    rw [hnmeq] at hpf
    exact dictGet_inj_of_nodup_values hvnd hpf hqf

/-- Witness for C5: two call sites sharing one scalar callable; both
hypotheses hold and the conclusion follows at that input. -/
theorem register_assigns_one_name_per_distinct_callable_value_witness :
    (∀ p ∈ exScalarPairs, p.2.isScalar = true) ∧
    (exScalarPairs.map Prod.fst).Nodup ∧
    ((∀ p ∈ exScalarPairs,
      dictGet p.1 (register_pymbolic_calls_to_knl_callables []
          exScalarPairs).pymbolicCallsToNewNames =
        dictGet p.2 (register_pymbolic_calls_to_knl_callables []
          exScalarPairs).scopedFunctionsToNames ∧
      (dictGet p.2 (register_pymbolic_calls_to_knl_callables []
          exScalarPairs).scopedFunctionsToNames).isSome = true) ∧
    (∀ p ∈ exScalarPairs, ∀ q ∈ exScalarPairs,
      (dictGet p.1 (register_pymbolic_calls_to_knl_callables []
          exScalarPairs).pymbolicCallsToNewNames =
        dictGet q.1 (register_pymbolic_calls_to_knl_callables []
          exScalarPairs).pymbolicCallsToNewNames ↔ p.2 = q.2)) ∧
    ((exScalarPairs.map Prod.snd).map
        (fun cal => dictGet cal (register_pymbolic_calls_to_knl_callables
          [] exScalarPairs).scopedFunctionsToNames)).toFinset.card =
      (exScalarPairs.map Prod.snd).toFinset.card) :=
  ⟨by decide, by decide,
    register_assigns_one_name_per_distinct_callable_value [] exScalarPairs
      (by decide) (by decide)⟩

/-- C8 counterexample: `ScalarCallable.with_descrs` mutates the
caller-supplied descriptor mapping (it executes
`arg_id_to_descr[-1] = ValueArgDescriptor()` on it before copying), so a
value reachable from the caller's inputs is changed: the empty mapping is
no longer empty after the call. -/
theorem scalar_with_descrs_mutates_input_dict :
    (ScalarCallableR.with_descrs ⟨"sin", none, none, none⟩ []).2 ≠ [] := by
  decide

/-- C8 (amended): every specialization transition returns a new callable
value built by `copy` — the methods never assign to the callable's own
attributes, so the callable itself is never mutated — but
`ScalarCallable.with_descrs` *does* mutate one value reachable from the
caller's inputs: it inserts `-1 ↦ ValueArgDescriptor` into the
caller-supplied descriptor mapping.  All other transitions leave the
caller-supplied mapping exactly as received (for the `CallableKernel`
transitions, stated over whichever result — value or exception — the call
produces). -/
theorem callable_transitions_pure_except_scalar_with_descrs :
    (∀ (s : ScalarCallableR) (d : List (ArgId × ArgDescr)),
        ScalarCallableR.with_descrs s d =
          ({ s with argIdToDescr := some (dictSet (.pos (-1)) .value d) },
            dictSet (.pos (-1)) .value d)) ∧
    (∀ (s : ScalarCallableR) (g l : GridVal), s.with_hw_axes_sizes g l = s) ∧
    (∀ (s : ScalarCallableR) (d : List (ArgId × Option Dtype)),
        ∃ msg, s.with_types d = .error (.loopyError msg)) ∧
    (∀ (c : CallableKernelR) (inferTypes : SubKernelR → SubKernelR)
        (d : List (ArgId × Option Dtype)),
        Except.map Prod.snd (c.with_types inferTypes d) =
          Except.map (fun _ => d) (c.with_types inferTypes d)) ∧
    (∀ (c : CallableKernelR) (d : List (ArgId × ArgDescr)),
        Except.map Prod.snd (c.with_descrs d) =
          Except.map (fun _ => d) (c.with_descrs d)) ∧
    (∀ (c : CallableKernelR) (g l : GridVal),
        c.with_hw_axes_sizes g l =
          { c with subkernel :=
              { c.subkernel with overriddenGridSizes := some (l, g) } }) := by
  refine ⟨fun s d => rfl, fun s g l => rfl, fun s d => ⟨_, rfl⟩, ?_, ?_, fun c g l => rfl⟩
  · intro c inferTypes d
    unfold CallableKernelR.with_types
    cases hargs : c.subkernel.args.mapM
        (withTypesArgUpdate d (kwToPos c.subkernel.args)) with
    | error e => simp [hargs, Except.map]
    | ok newArgs =>
        simp only [hargs]
        cases hmap : (inferTypes { c.subkernel with args := newArgs }).args.foldlM
            (withTypesMapFold (kwToPos c.subkernel.args))
            ([] : List (ArgId × Option Dtype)) with
        | error e => simp [hmap, Except.map]
        | ok newMap => simp [hmap, Except.map]
  · intro c d
    unfold CallableKernelR.with_descrs
    cases hargs : d.foldlM (withDescrsItemUpdate (kwToPos c.subkernel.args))
        c.subkernel.args with
    | error e => simp [hargs, Except.map]
    | ok newArgs => simp [hargs, Except.map]

end Loopy
